import Mathlib

/-!
# Translation unit cache (`clang/libclang/translationunitcache.go`)

A shallow embedding of the cache of parsed translation units: the path to
handle map, the parsing-marker set, the bounded work queue, and the operations
`parse`, `reparse`, `addEx`, `GetTranslationUnit` and `CompleteAt`.

Conventions of the embedding.

* A Go `[]string` is `Option (List String)`: `none` is the nil slice, `some l`
  a non-nil slice with elements `l`.  `reflect.DeepEqual` on two such slices is
  equality of these values (a nil slice and an empty non-nil slice differ).
* A `*LockedTranslationUnit` is a handle value carrying the address `addr` it
  was allocated at; the nil pointer is `none`.  The fields of a handle are never
  assigned after the handle is published, so a pointer is represented by the
  value it points to together with its address.
* The Go maps `lut` and `parsing` are only ever indexed, assigned and deleted
  from, so they are total functions on keys (`none` and `false` for a missing key).
* The buffered channel `queue` is the list of the work units captured by the
  queued closures `func() { t.parse(w) }`, oldest first.  A send on a full
  channel does not return in a sequential execution: operations return
  `Option`, and `none` stands for "blocked in the channel send".
* Every operation appends the actions it performs to `trace`, in program order.
* The parse engine (`clang.Index`, `clang.TranslationUnit`) is a parameter.
-/

namespace libclang

/-- A Go `[]string`: `none` is the nil slice. -/
abbrev Slice := Option (List String)

/-- The elements of a slice as an ordered sequence (empty for the nil slice). -/
def Slice.elems (o : Slice) : List String := o.getD []

/-- The value `clang.TranslationUnit`: a wrapper of a C pointer, `0` being NULL. -/
structure TranslationUnit where
  c : Nat
deriving DecidableEq, Repr

/-- Method `IsValid` of `clang.TranslationUnit`: the C pointer is not NULL. -/
def TranslationUnit.IsValid (tu : TranslationUnit) : Bool := tu.c != 0

/-- The struct `LockedTranslationUnit`, with the address it was allocated at. -/
structure LockedTranslationUnit where
  addr : Nat
  TranslationUnit : TranslationUnit
  opts : Slice
  opts_script : String
deriving DecidableEq, Repr

/-- The struct `workunit`; `on_done` is `none` for a nil callback and `some f`
for the callback identified by `f`. -/
structure workunit where
  filename : String
  options : Slice
  options_script : String
  on_done : Option Nat
deriving DecidableEq, Repr

/-- The actions the cache performs, recorded in program order. -/
inductive Event where
  | Lock
  | Unlock
  | lutRead (filename : String)
  | lutWrite (filename : String) (tu : Nat)
  | lutDelete (filename : String)
  | parsingRead (filename : String)
  | parsingWrite (filename : String) (v : Bool)
  | queueSend (w : workunit)
  | queueRecv (w : workunit)
  | indexParse (filename : String) (options : Slice) (flags : Int)
  | callback (f : Nat)
  | tuLock (tu : Nat)
  | tuUnlock (tu : Nat)
  | tuReparse (tu : Nat) (c : Nat) (flags : Int)
  | tuCompleteAt (c : Nat) (filename : String) (line : Int) (column : Int) (flags : Int)
  | cresDispose
deriving DecidableEq, Repr

/-- True of the calls into the parse engine. -/
def Event.isEngineCall : Event → Bool
  | Event.indexParse _ _ _ => true
  | Event.tuReparse _ _ _ => true
  | Event.tuCompleteAt _ _ _ _ _ => true
  | _ => false

/-- True of the calls of `index.Parse`. -/
def Event.isIndexParse : Event → Bool
  | Event.indexParse _ _ _ => true
  | _ => false

/-- True of the invocations of a completion callback. -/
def Event.isCallback : Event → Bool
  | Event.callback _ => true
  | _ => false

/-- The struct `TranslationUnitCache`.  `nextAddr` is the address the next
allocated handle gets. -/
structure TranslationUnitCache where
  lut : String → Option LockedTranslationUnit
  parsing : String → Bool
  queue : List workunit
  nextAddr : Nat
  trace : List Event

def WORK_QUEUE_LEN : Nat := 10

def index_parse_options : Int := 0

/-- A result of the engine's code completion: one chunk of a completion string. -/
inductive CompletionChunkKind where
  | ResultType
  | Placeholder
  | LeftParen
  | RightParen
  | Comma
  | TypedText
  | Other (k : Nat)
deriving DecidableEq, Repr

structure CompletionChunk where
  Kind : CompletionChunkKind
  Text : String
deriving DecidableEq, Repr

inductive CursorKind where
  | StructDecl
  | TypedefDecl
  | FunctionDecl
  | Other (k : Nat)
deriving DecidableEq, Repr

structure CompletionCandidate where
  CursorKind : CursorKind
  Chunks : List CompletionChunk
deriving DecidableEq, Repr

/-- The value `clang.CodeCompleteResults`: `none` when `IsValid` is false. -/
abbrev CodeCompleteResults := Option (List CompletionCandidate)

/-- The parse engine.  The first argument of each capability is the number of
actions performed so far, so that the engine may answer differently over time. -/
structure Engine where
  Parse : Nat → String → Slice → Int → TranslationUnit
  CompleteAt : Nat → TranslationUnit → String → Int → Int → Int → CodeCompleteResults

/-- Function `NewTranslationUnitCache`. -/
def NewTranslationUnitCache : TranslationUnitCache :=
  { lut := fun _ => none
    parsing := fun _ => false
    queue := []
    nextAddr := 0
    trace := [] }

/-- Record actions at the end of the trace. -/
def TranslationUnitCache.emit (t : TranslationUnitCache) (es : List Event) :
    TranslationUnitCache :=
  { t with trace := t.trace ++ es }

/-- Method `addEx`.  The marker is read only when the path has no handle
(short-circuit `&&`); the send blocks when the channel holds
`WORK_QUEUE_LEN` jobs. -/
def addEx (w : workunit) (t : TranslationUnitCache) : Option TranslationUnitCache :=
  let t1 := t.emit [Event.Lock, Event.lutRead w.filename]
  match t1.lut w.filename with
  | none =>
    let t2 := t1.emit [Event.parsingRead w.filename]
    if !(t2.parsing w.filename) then
      let t3 := { t2.emit [Event.parsingWrite w.filename true] with
                  parsing := Function.update t2.parsing w.filename true }
      if t3.queue.length < WORK_QUEUE_LEN then
        some ({ t3.emit [Event.queueSend w] with queue := t3.queue ++ [w] }.emit [Event.Unlock])
      else
        none
    else
      some (t2.emit [Event.Unlock])
  | some _ =>
    some (t1.emit [Event.Unlock])

/-- Method `GetTranslationUnit`.  The condition of the inner `if` is the
source's `true || tu2.IsValid()`; a fresh handle is allocated with zero-valued
`opts` and `opts_script`, and only its `TranslationUnit` field is assigned. -/
def GetTranslationUnit (E : Engine) (filename : String) (options : Slice)
    (options_script : String) (unsaved_files : Option (List (String × String)))
    (t : TranslationUnitCache) :
    Option (TranslationUnitCache × Option LockedTranslationUnit) :=
  let _ := unsaved_files
  let t1 := t.emit [Event.Lock, Event.lutRead filename]
  match t1.lut filename with
  | none =>
    let t2 := t1.emit [Event.Unlock]
    let tu2 := E.Parse t2.trace.length filename options index_parse_options
    let t3 := t2.emit [Event.indexParse filename options index_parse_options]
    if true || tu2.IsValid then
      let tu : LockedTranslationUnit :=
        { addr := t3.nextAddr, TranslationUnit := tu2, opts := none, opts_script := "" }
      let t4 := { t3 with nextAddr := t3.nextAddr + 1 }
      let t5 := { t4.emit [Event.Lock, Event.lutWrite filename tu.addr] with
                  lut := Function.update t4.lut filename (some tu) }
      some (t5.emit [Event.Unlock], some tu)
    else
      some (t3, none)
  | some tu =>
    let recompile := !(decide (tu.opts = options)) || tu.opts_script != options_script
    let t2 := if recompile then
        { t1.emit [Event.lutDelete filename] with lut := Function.update t1.lut filename none }
      else t1
    let t3 := t2.emit [Event.Unlock]
    if recompile then
      match addEx { filename := filename, options := options,
                    options_script := options_script, on_done := none } t3 with
      | none => none
      | some t4 => some (t4, some tu)
    else
      some (t3, some tu)

/-- Method `parse`: the deferred function runs after `GetTranslationUnit`
returned, takes the lock, clears the marker, calls `on_done` when it is not
nil, and releases the lock. -/
def parse (E : Engine) (w : workunit) (t : TranslationUnitCache) :
    Option (TranslationUnitCache × Option LockedTranslationUnit) :=
  match GetTranslationUnit E w.filename w.options w.options_script none t with
  | none => none
  | some (t1, ret) =>
    let t2 := { t1.emit [Event.Lock, Event.parsingWrite w.filename false] with
                parsing := Function.update t1.parsing w.filename false }
    let t3 := match w.on_done with
      | some f => t2.emit [Event.callback f]
      | none => t2
    some (t3.emit [Event.Unlock], ret)

/-- Method `reparse`. -/
def reparse (E : Engine) (w : workunit) (t : TranslationUnitCache) :
    Option TranslationUnitCache :=
  match parse E w t with
  | none => none
  | some (t1, some tu) =>
    some (t1.emit [Event.tuLock tu.addr,
                   Event.tuReparse tu.addr tu.TranslationUnit.c 0,
                   Event.tuUnlock tu.addr])
  | some (t1, none) => some t1

/-! ## Completion query -/

/-- The struct `content.FullyQualifiedName`, as far as `CompleteAt` uses it. -/
structure FullyQualifiedName where
  Relative : String
  Absolute : String
deriving DecidableEq, Repr

/-- The struct `content.Type`, as far as `CompleteAt` uses it. -/
structure ContentType where
  Name : FullyQualifiedName
  Flags : Nat
deriving DecidableEq, Repr

/-- The struct `content.Variable`, as far as `CompleteAt` uses it. -/
structure Variable where
  Name : FullyQualifiedName
  Typ : ContentType
deriving DecidableEq, Repr

/-- The struct `content.Method`, as far as `CompleteAt` uses it. -/
structure Method where
  Name : FullyQualifiedName
  Parameters : List Variable
  Returns : List Variable
deriving DecidableEq, Repr

/-- The struct `content.CompletionResult`, as far as `CompleteAt` uses it. -/
structure CompletionResult where
  Types : List ContentType
  Methods : List Method
deriving DecidableEq, Repr

structure File where
  Name : String
  Contents : String
deriving DecidableEq, Repr

structure SourceLocation where
  File : File
  Line : Nat
  Column : Nat
deriving DecidableEq, Repr

/-- The struct `content.CompleteAtArgs`, as far as `CompleteAt` uses it. -/
structure CompleteAtArgs where
  Location : SourceLocation
deriving DecidableEq, Repr

/-- The zero values of the content structs. -/
def FullyQualifiedName.zero : FullyQualifiedName := { Relative := "", Absolute := "" }

def ContentType.zero : ContentType := { Name := FullyQualifiedName.zero, Flags := 0 }

def Variable.zero : Variable := { Name := FullyQualifiedName.zero, Typ := ContentType.zero }

def Method.zero : Method :=
  { Name := FullyQualifiedName.zero, Parameters := [], Returns := [] }

/-- The conversion `int(x)` of an unsigned 64-bit value. -/
def goInt (n : Nat) : Int :=
  if n % 2 ^ 64 < 2 ^ 63 then ((n % 2 ^ 64 : Nat) : Int) else ((n % 2 ^ 64 : Nat) : Int) - 2 ^ 64

/-- The local variables of the `CK_FunctionDecl` case of `CompleteAt`. -/
structure FunctionDeclLocals where
  m : Method
  paramstarted : Bool
  argCount : Nat
  buf : String
deriving DecidableEq, Repr

/-- One iteration of the chunk loop of the `CK_FunctionDecl` case. -/
def functionDeclChunk (l : FunctionDeclLocals) (c : CompletionChunk) : FunctionDeclLocals :=
  match c.Kind with
  | CompletionChunkKind.ResultType =>
    let v : Variable := { Variable.zero with Name := { FullyQualifiedName.zero with Relative := c.Text } }
    { l with m := { l.m with Returns := l.m.Returns ++ [v] } }
  | CompletionChunkKind.Placeholder =>
    let v : Variable :=
      { Name := { FullyQualifiedName.zero with Relative := "arg" ++ toString l.argCount }
        Typ := { ContentType.zero with Name := { FullyQualifiedName.zero with Relative := c.Text } } }
    { l with argCount := l.argCount + 1, m := { l.m with Parameters := l.m.Parameters ++ [v] } }
  | CompletionChunkKind.LeftParen => { l with paramstarted := true }
  | CompletionChunkKind.RightParen => l
  | CompletionChunkKind.Comma => l
  | CompletionChunkKind.TypedText =>
    if !l.paramstarted then { l with buf := l.buf ++ c.Text } else l
  | CompletionChunkKind.Other _ => l

/-- One iteration of the loop over `cres.Results()`: `buf` is declared in the
loop body, so every candidate starts with an empty buffer. -/
def completeResult (FLAG_TYPE_CLASS : Nat) (res : CompletionResult) (r : CompletionCandidate) :
    CompletionResult :=
  match r.CursorKind with
  | CursorKind.StructDecl | CursorKind.TypedefDecl =>
    let buf := r.Chunks.foldl (fun b c => b ++ c.Text) ""
    let tt : ContentType :=
      { Name := { FullyQualifiedName.zero with Absolute := buf }, Flags := FLAG_TYPE_CLASS }
    { res with Types := res.Types ++ [tt] }
  | CursorKind.FunctionDecl =>
    let l := r.Chunks.foldl functionDeclChunk
      { m := Method.zero, paramstarted := false, argCount := 0, buf := "" }
    let m : Method := { l.m with Name := { l.m.Name with Relative := l.buf } }
    { res with Methods := res.Methods ++ [m] }
  | CursorKind.Other _ => res

/-- Method `CompleteAt`; the result is the cache, the result object `res` as
the method leaves it, and the returned `error` (`none` for nil).  The constant
`content.FLAG_TYPE_CLASS` is a parameter.  The map is read without the lock. -/
def CompleteAt (E : Engine) (FLAG_TYPE_CLASS : Nat) (args : CompleteAtArgs)
    (res : CompletionResult) (t : TranslationUnitCache) :
    TranslationUnitCache × CompletionResult × Option String :=
  if args.Location.File.Contents.utf8ByteSize != 0 then
    (t, res, some "Unfortunately completion of unsaved files is currently not supported")
  else
    let t1 := t.emit [Event.lutRead args.Location.File.Name]
    match t1.lut args.Location.File.Name with
    | some tu =>
      let cres := E.CompleteAt t1.trace.length tu.TranslationUnit args.Location.File.Name
        (goInt args.Location.Line) (goInt args.Location.Column) 0
      let t2 := t1.emit [Event.tuCompleteAt tu.TranslationUnit.c args.Location.File.Name
        (goInt args.Location.Line) (goInt args.Location.Column) 0]
      match cres with
      | none => (t2, res, some "CompleteResults is not valid")
      | some results =>
        (t2.emit [Event.cresDispose], results.foldl (completeResult FLAG_TYPE_CLASS) res, none)
    | none => (t1, res, none)

/-! ## The background worker -/

/-- The cache together with the jobs a worker has received and not yet finished. -/
structure System where
  cache : TranslationUnitCache
  executing : List workunit

/-- Modelled from the spec: the background worker is not in the source file;
it dequeues the oldest job from the work queue (blocking on an empty queue). -/
def workerTake (s : System) : Option System :=
  match s.cache.queue with
  | [] => none
  | w :: q =>
    some { cache := { s.cache.emit [Event.queueRecv w] with queue := q }
           executing := s.executing ++ [w] }

/-- Modelled from the spec: the worker executes a job it has received, that is
the closure `func() { t.parse(w) }` queued by `addEx`, to completion. -/
def workerRun (E : Engine) (i : Nat) (s : System) : Option System :=
  match s.executing[i]? with
  | none => none
  | some w =>
    match parse E w s.cache with
    | none => none
    | some (t, _) => some { cache := t, executing := s.executing.eraseIdx i }

/-- One step of the system: a caller runs `addEx` or `GetTranslationUnit`, or a
worker receives or executes a job.  A blocked operation is no step. -/
inductive Step (E : Engine) : System → System → Prop where
  | addEx (s : System) (w : workunit) (t : TranslationUnitCache) :
      addEx w s.cache = some t → Step E s { s with cache := t }
  | GetTranslationUnit (s : System) (filename : String) (options : Slice)
      (options_script : String) (unsaved_files : Option (List (String × String)))
      (t : TranslationUnitCache) (ret : Option LockedTranslationUnit) :
      libclang.GetTranslationUnit E filename options options_script unsaved_files s.cache
        = some (t, ret) → Step E s { s with cache := t }
  | workerTake (s s' : System) : libclang.workerTake s = some s' → Step E s s'
  | workerRun (s s' : System) (i : Nat) : libclang.workerRun E i s = some s' → Step E s s'

/-- The states reachable from `NewTranslationUnitCache()`. -/
inductive Reachable (E : Engine) : System → Prop where
  | init : Reachable E { cache := NewTranslationUnitCache, executing := [] }
  | step (s s' : System) : Reachable E s → Step E s s' → Reachable E s'

/-- The number of jobs for path `P` in a list of jobs. -/
def jobsFor (P : String) (l : List workunit) : Nat :=
  l.countP (fun w => w.filename == P)

/-! ## Auxiliary definitions: resulting states, example inputs, scenarios -/

/-- The cache `addEx` leaves when it passes its gate and the send succeeds. -/
def enqueued (w : workunit) (t : TranslationUnitCache) : TranslationUnitCache :=
  { lut := t.lut
    parsing := Function.update t.parsing w.filename true
    queue := t.queue ++ [w]
    nextAddr := t.nextAddr
    trace := t.trace ++ [Event.Lock, Event.lutRead w.filename, Event.parsingRead w.filename,
      Event.parsingWrite w.filename true, Event.queueSend w, Event.Unlock] }

/-- The handle the absent-path branch of `GetTranslationUnit` allocates. -/
def freshHandle (E : Engine) (filename : String) (options : Slice)
    (t : TranslationUnitCache) : LockedTranslationUnit :=
  { addr := t.nextAddr
    TranslationUnit := E.Parse (t.trace.length + 3) filename options index_parse_options
    opts := none
    opts_script := "" }

/-- The cache the absent-path branch of `GetTranslationUnit` leaves. -/
def stored (E : Engine) (filename : String) (options : Slice)
    (t : TranslationUnitCache) : TranslationUnitCache :=
  { lut := Function.update t.lut filename (some (freshHandle E filename options t))
    parsing := t.parsing
    queue := t.queue
    nextAddr := t.nextAddr + 1
    trace := t.trace ++ [Event.Lock, Event.lutRead filename, Event.Unlock,
      Event.indexParse filename options index_parse_options,
      Event.Lock, Event.lutWrite filename t.nextAddr, Event.Unlock] }

/-- The cache after the eviction of the entry of `filename`, at the first unlock. -/
def evicted (filename : String) (t : TranslationUnitCache) : TranslationUnitCache :=
  { lut := Function.update t.lut filename none
    parsing := t.parsing
    queue := t.queue
    nextAddr := t.nextAddr
    trace := t.trace ++ [Event.Lock, Event.lutRead filename, Event.lutDelete filename,
      Event.Unlock] }

/-- The invariant: per path at most one job is queued or executing, and a path
is marked parsing exactly when it has such a job. -/
def OneJob (s : System) : Prop :=
  ∀ P, jobsFor P (s.cache.queue ++ s.executing) ≤ 1 ∧
    (s.cache.parsing P = true ↔ 0 < jobsFor P (s.cache.queue ++ s.executing))

/-- An engine that always succeeds, returning a fresh non-NULL artifact. -/
def okEngine : Engine :=
  { Parse := fun n _ _ _ => ⟨n + 1⟩
    CompleteAt := fun _ _ _ _ _ _ => none }

/-- An engine whose `Parse` always fails (NULL artifact). -/
def failEngine : Engine :=
  { Parse := fun _ _ _ _ => ⟨0⟩
    CompleteAt := fun _ _ _ _ _ _ => none }

/-- A cache in which `a.cc` has a handle while a job for it is still queued:
the state after three calls `GetTranslationUnit("a.cc", ["-std=c++11"], "", nil)`
on a new cache with `okEngine`. -/
def markedCache : TranslationUnitCache :=
  { lut := fun f => if f = "a.cc" then some ⟨1, ⟨21⟩, none, ""⟩ else none
    parsing := fun f => decide (f = "a.cc")
    queue := [⟨"a.cc", some ["-std=c++11"], "", none⟩]
    nextAddr := 2
    trace := [] }

/-- A cache in which `a.cc` has a handle recorded with two options. -/
def twoOptionCache : TranslationUnitCache :=
  { lut := fun f => if f = "a.cc" then some ⟨0, ⟨1⟩, some ["-I.", "-DX"], ""⟩ else none
    parsing := fun _ => false
    queue := []
    nextAddr := 1
    trace := [] }

/-- The handles returned by three calls in a row of
`GetTranslationUnit("a.cc", ["-std=c++11"], "", nil)` on a new cache, with the
entry of `a.cc`, its marker and the queue after the second call, the number of
`Parse` calls after the second call, and the number after the third. -/
def repeatedRequest : Option (Option LockedTranslationUnit × Option LockedTranslationUnit ×
    Option LockedTranslationUnit × Option LockedTranslationUnit × Bool × List workunit ×
    Nat × Nat) :=
  (GetTranslationUnit okEngine "a.cc" (some ["-std=c++11"]) "" none NewTranslationUnitCache).bind
    (fun p1 => (GetTranslationUnit okEngine "a.cc" (some ["-std=c++11"]) "" none p1.1).bind
      (fun p2 => (GetTranslationUnit okEngine "a.cc" (some ["-std=c++11"]) "" none p2.1).map
        (fun p3 => (p1.2, p2.2, p3.2, p2.1.lut "a.cc", p2.1.parsing "a.cc", p2.1.queue,
          p2.1.trace.countP Event.isIndexParse, p3.1.trace.countP Event.isIndexParse))))

/-- A cache whose work queue is full: the state after ten `addEx` calls for ten
different paths on a new cache, with no worker step. -/
def fullCache : TranslationUnitCache :=
  { lut := fun _ => none
    parsing := fun f => decide (f ∈ ["0.cc", "1.cc", "2.cc", "3.cc", "4.cc", "5.cc", "6.cc",
      "7.cc", "8.cc", "9.cc"])
    queue := ["0.cc", "1.cc", "2.cc", "3.cc", "4.cc", "5.cc", "6.cc", "7.cc", "8.cc",
      "9.cc"].map (fun f => ⟨f, none, "", none⟩)
    nextAddr := 0
    trace := [] }

/-- Issue `addEx` for each work unit of `ws`, one call after the other. -/
def addExAll (ws : List workunit) (t : TranslationUnitCache) : Option TranslationUnitCache :=
  ws.foldlM (fun t w => addEx w t) t

/-- A cache in which `a.cc` has a handle recorded with nil options and an empty
script: the state after `GetTranslationUnit("a.cc", nil, "", nil)` on a new
cache with `okEngine`. -/
def nilOptionCache : TranslationUnitCache :=
  { lut := fun f => if f = "a.cc" then some ⟨0, ⟨4⟩, none, ""⟩ else none
    parsing := fun _ => false
    queue := []
    nextAddr := 1
    trace := [] }

/-- The scenario: on a new cache with an engine that always succeeds, request
`a.cc` with `["-std=c++11"]`, request it with `["-std=c++17"]`, let the worker
receive and run the queued job, and request it with `["-std=c++17"]` again.
The result lists the three returned handles and, after the third call, the
entry of `a.cc`, its marker and the queue. -/
def optionChangeScenario : Option (Option LockedTranslationUnit × Option LockedTranslationUnit ×
    Option LockedTranslationUnit × Option LockedTranslationUnit × Bool × List workunit) :=
  (GetTranslationUnit okEngine "a.cc" (some ["-std=c++11"]) "" none NewTranslationUnitCache).bind
    (fun p1 => (GetTranslationUnit okEngine "a.cc" (some ["-std=c++17"]) "" none p1.1).bind
      (fun p2 => (workerTake ⟨p2.1, []⟩).bind
        (fun s3 => (workerRun okEngine 0 s3).bind
          (fun s4 => (GetTranslationUnit okEngine "a.cc" (some ["-std=c++17"]) "" none
              s4.cache).map
            (fun p5 => (p1.2, p2.2, p5.2, p5.1.lut "a.cc", p5.1.parsing "a.cc",
              p5.1.queue))))))

/-- The frame condition of an operation on path `P`, seen from another path
`Q`: the entry, the marker and the queued jobs of `Q` are the same in `t` and
`t'`, and the queue of `t'` is the queue of `t`, possibly with one job for `P`
appended. -/
def framed (P Q : String) (t t' : TranslationUnitCache) : Prop :=
  t'.lut Q = t.lut Q ∧ t'.parsing Q = t.parsing Q ∧
  t'.queue.filter (fun j => j.filename = Q) = t.queue.filter (fun j => j.filename = Q) ∧
  (t'.queue = t.queue ∨ ∃ j : workunit, j.filename = P ∧ t'.queue = t.queue ++ [j])

/-- A cache in which `a.cc` has no entry, is marked parsing and has a queued
job: the state after `addEx` for `a.cc` on a new cache. -/
def pendingCache : TranslationUnitCache :=
  enqueued ⟨"a.cc", some ["-std=c++17"], "", none⟩ NewTranslationUnitCache

/-! ## The formatting of function candidates, in the words of the specification -/

/-- The name of a function candidate as the specification words it: the
concatenation of the texts of the `TypedText` chunks that occur before the
first `LeftParen` chunk. -/
def specName (cs : List CompletionChunk) : String :=
  String.join (((cs.takeWhile (fun c => c.Kind ≠ CompletionChunkKind.LeftParen)).filter
    (fun c => c.Kind = CompletionChunkKind.TypedText)).map (fun c => c.Text))

/-- The parameters as the specification words them, numbered from `n`: one
entry per `Placeholder` chunk, in order, named `arg` followed by the decimal
index, with the chunk's text as type name. -/
def specParametersFrom (n : Nat) (cs : List CompletionChunk) : List Variable :=
  ((cs.filter (fun c => c.Kind = CompletionChunkKind.Placeholder)).enumFrom n).map
    (fun p => { Name := { Relative := "arg" ++ toString p.1, Absolute := "" }
                Typ := { Name := { Relative := p.2.Text, Absolute := "" }, Flags := 0 } })

/-- The parameters of a function candidate, numbered from 0. -/
def specParameters (cs : List CompletionChunk) : List Variable := specParametersFrom 0 cs

/-- The returns as the specification words them: one entry per `ResultType`
chunk, in order.  The specification leaves the content of an entry open; the
code puts the chunk's text in the entry's relative name. -/
def specReturns (cs : List CompletionChunk) : List Variable :=
  (cs.filter (fun c => c.Kind = CompletionChunkKind.ResultType)).map
    (fun c => { Name := { Relative := c.Text, Absolute := "" }, Typ := ContentType.zero })

/-- The method of one function candidate, in the words of the specification. -/
def specMethod (cs : List CompletionChunk) : Method :=
  { Name := { Relative := specName cs, Absolute := "" }
    Parameters := specParameters cs
    Returns := specReturns cs }

/-- The methods of a candidate list, in the words of the specification: one
per candidate of kind `FunctionDecl`, in candidate order. -/
def specMethods (results : List CompletionCandidate) : List Method :=
  (results.filter (fun r => r.CursorKind = CursorKind.FunctionDecl)).map
    (fun r => specMethod r.Chunks)

/-- A candidate list with two functions and a struct:
`int foo(int a, char b)`, `struct S` and `bar()` followed by a stray
`TypedText` chunk. -/
def sampleCandidates : List CompletionCandidate :=
  [⟨CursorKind.FunctionDecl,
      [⟨CompletionChunkKind.ResultType, "int"⟩, ⟨CompletionChunkKind.TypedText, "foo"⟩,
       ⟨CompletionChunkKind.LeftParen, "("⟩, ⟨CompletionChunkKind.Placeholder, "int a"⟩,
       ⟨CompletionChunkKind.Comma, ", "⟩, ⟨CompletionChunkKind.Placeholder, "char b"⟩,
       ⟨CompletionChunkKind.RightParen, ")"⟩]⟩,
   ⟨CursorKind.StructDecl, [⟨CompletionChunkKind.TypedText, "S"⟩]⟩,
   ⟨CursorKind.FunctionDecl,
      [⟨CompletionChunkKind.TypedText, "bar"⟩, ⟨CompletionChunkKind.LeftParen, "("⟩,
       ⟨CompletionChunkKind.RightParen, ")"⟩, ⟨CompletionChunkKind.TypedText, "x"⟩]⟩]

/-- An engine whose code completion always returns `sampleCandidates`. -/
def sampleEngine : Engine :=
  { Parse := fun n _ _ _ => ⟨n + 1⟩
    CompleteAt := fun _ _ _ _ _ _ => some sampleCandidates }

/-! ## The store lock along a trace -/

/-- True of the reads and writes of the path to handle map and of the
parsing-marker set. -/
def Event.isStoreAccess : Event → Bool
  | Event.lutRead _ => true
  | Event.lutWrite _ _ => true
  | Event.lutDelete _ => true
  | Event.parsingRead _ => true
  | Event.parsingWrite _ _ => true
  | _ => false

/-- The held flag of the store lock after an action. -/
def lockStep (held : Bool) : Event → Bool
  | Event.Lock => true
  | Event.Unlock => false
  | _ => held

/-- The held flag of the store lock after a trace, starting from `held`. -/
def lockAfter (held : Bool) (es : List Event) : Bool := es.foldl lockStep held

/-- The actions of a trace that break the lock discipline, starting from
`held`: an access to the map or the marker set while the lock is not held, and
a call of the engine's `Parse` or of a completion callback while it is held. -/
def lockViolations : Bool → List Event → List Event
  | _, [] => []
  | held, e :: es =>
    if (e.isStoreAccess && !held) || ((e.isIndexParse || e.isCallback) && held) then
      e :: lockViolations (lockStep held e) es
    else
      lockViolations (lockStep held e) es

/-! ## The effect of `addEx` -/

theorem emit_lut (t : TranslationUnitCache) (es : List Event) : (t.emit es).lut = t.lut := rfl

theorem emit_parsing (t : TranslationUnitCache) (es : List Event) :
    (t.emit es).parsing = t.parsing := rfl

theorem emit_queue (t : TranslationUnitCache) (es : List Event) :
    (t.emit es).queue = t.queue := rfl

theorem emit_nextAddr (t : TranslationUnitCache) (es : List Event) :
    (t.emit es).nextAddr = t.nextAddr := rfl

theorem emit_trace (t : TranslationUnitCache) (es : List Event) :
    (t.emit es).trace = t.trace ++ es := rfl

theorem addEx_enqueue (w : workunit) (t : TranslationUnitCache)
    (hl : t.lut w.filename = none) (hp : t.parsing w.filename = false)
    (hq : t.queue.length < WORK_QUEUE_LEN) : addEx w t = some (enqueued w t) := by
  simp [addEx, enqueued, TranslationUnitCache.emit, hl, hp, hq]

theorem addEx_blocked (w : workunit) (t : TranslationUnitCache)
    (hl : t.lut w.filename = none) (hp : t.parsing w.filename = false)
    (hq : ¬ t.queue.length < WORK_QUEUE_LEN) : addEx w t = none := by
  simp [addEx, TranslationUnitCache.emit, hl, hp, hq]

theorem addEx_present (w : workunit) (t : TranslationUnitCache) (tu : LockedTranslationUnit)
    (hl : t.lut w.filename = some tu) :
    addEx w t = some (t.emit [Event.Lock, Event.lutRead w.filename, Event.Unlock]) := by
  simp [addEx, TranslationUnitCache.emit, hl]

theorem addEx_marked (w : workunit) (t : TranslationUnitCache)
    (hl : t.lut w.filename = none) (hp : t.parsing w.filename = true) :
    addEx w t = some (t.emit [Event.Lock, Event.lutRead w.filename,
      Event.parsingRead w.filename, Event.Unlock]) := by
  simp [addEx, TranslationUnitCache.emit, hl, hp]

/-- What a returning `addEx` does to the queue and the markers: nothing, or it
appends `w` for a path that was unmarked and marks it. -/
theorem addEx_effect (w : workunit) (t t' : TranslationUnitCache) (h : addEx w t = some t') :
    t'.lut = t.lut ∧ t'.nextAddr = t.nextAddr ∧
    ((t'.queue = t.queue ∧ t'.parsing = t.parsing) ∨
     (t.parsing w.filename = false ∧ t'.queue = t.queue ++ [w] ∧
      t'.parsing = Function.update t.parsing w.filename true)) := by
  cases hl : t.lut w.filename with
  | some tu =>
    rw [addEx_present w t tu hl] at h
    cases h
    exact ⟨rfl, rfl, Or.inl ⟨rfl, rfl⟩⟩
  | none =>
    cases hp : t.parsing w.filename with
    | true =>
      rw [addEx_marked w t hl hp] at h
      cases h
      exact ⟨rfl, rfl, Or.inl ⟨rfl, rfl⟩⟩
    | false =>
      by_cases hq : t.queue.length < WORK_QUEUE_LEN
      · rw [addEx_enqueue w t hl hp hq] at h
        cases h
        exact ⟨rfl, rfl, Or.inr ⟨rfl, rfl, rfl⟩⟩
      · rw [addEx_blocked w t hl hp hq] at h
        cases h

/-! ## The effect of `GetTranslationUnit` -/

theorem GetTranslationUnit_absent (E : Engine) (filename : String) (options : Slice)
    (options_script : String) (u : Option (List (String × String)))
    (t : TranslationUnitCache) (hl : t.lut filename = none) :
    GetTranslationUnit E filename options options_script u t
      = some (stored E filename options t, some (freshHandle E filename options t)) := by
  simp [GetTranslationUnit, stored, freshHandle, TranslationUnitCache.emit, hl]

theorem GetTranslationUnit_same (E : Engine) (filename : String) (options : Slice)
    (options_script : String) (u : Option (List (String × String)))
    (t : TranslationUnitCache) (tu : LockedTranslationUnit) (hl : t.lut filename = some tu)
    (ho : tu.opts = options) (hs : tu.opts_script = options_script) :
    GetTranslationUnit E filename options options_script u t
      = some (t.emit [Event.Lock, Event.lutRead filename, Event.Unlock], some tu) := by
  simp [GetTranslationUnit, TranslationUnitCache.emit, hl, ho, hs]

theorem GetTranslationUnit_changed (E : Engine) (filename : String) (options : Slice)
    (options_script : String) (u : Option (List (String × String)))
    (t : TranslationUnitCache) (tu : LockedTranslationUnit) (hl : t.lut filename = some tu)
    (hne : tu.opts ≠ options ∨ tu.opts_script ≠ options_script) :
    GetTranslationUnit E filename options options_script u t
      = (addEx { filename := filename, options := options, options_script := options_script,
                 on_done := none } (evicted filename t)).map (fun t4 => (t4, some tu)) := by
  have hr : (!(decide (tu.opts = options)) || tu.opts_script != options_script) = true := by
    rcases hne with h | h <;> simp [h]
  simp only [GetTranslationUnit, emit_lut, hl, hr, if_true]
  have he : ({ t.emit [Event.Lock, Event.lutRead filename, Event.lutDelete filename] with
      lut := Function.update t.lut filename none } : TranslationUnitCache).emit [Event.Unlock]
      = evicted filename t := by
    simp [evicted, TranslationUnitCache.emit]
  cases h : addEx ⟨filename, options, options_script, none⟩ (evicted filename t) <;>
    simp_all [TranslationUnitCache.emit]

/-! ## What the operations do to the queue and the markers -/

theorem GetTranslationUnit_effect (E : Engine) (P : String) (O : Slice) (s : String)
    (u : Option (List (String × String))) (t t' : TranslationUnitCache)
    (ret : Option LockedTranslationUnit)
    (h : GetTranslationUnit E P O s u t = some (t', ret)) :
    (t'.queue = t.queue ∧ t'.parsing = t.parsing) ∨
    (t.parsing P = false ∧ t'.queue = t.queue ++ [⟨P, O, s, none⟩] ∧
      t'.parsing = Function.update t.parsing P true) := by
  cases hl : t.lut P with
  | none =>
    rw [GetTranslationUnit_absent E P O s u t hl] at h
    cases h
    exact Or.inl ⟨rfl, rfl⟩
  | some tu =>
    by_cases hne : tu.opts ≠ O ∨ tu.opts_script ≠ s
    · rw [GetTranslationUnit_changed E P O s u t tu hl hne] at h
      cases ha : addEx ⟨P, O, s, none⟩ (evicted P t) with
      | none => rw [ha] at h; cases h
      | some t4 =>
        rw [ha] at h
        cases h
        exact (addEx_effect _ _ _ ha).2.2
    · have ho : tu.opts = O := by
        by_contra hc
        exact hne (Or.inl hc)
      have hs : tu.opts_script = s := by
        by_contra hc
        exact hne (Or.inr hc)
      rw [GetTranslationUnit_same E P O s u t tu hl ho hs] at h
      cases h
      exact Or.inl ⟨rfl, rfl⟩

theorem parse_effect (E : Engine) (w : workunit) (t t' : TranslationUnitCache)
    (ret : Option LockedTranslationUnit) (h : parse E w t = some (t', ret)) :
    ∃ t1, GetTranslationUnit E w.filename w.options w.options_script none t = some (t1, ret) ∧
      t'.lut = t1.lut ∧ t'.queue = t1.queue ∧ t'.nextAddr = t1.nextAddr ∧
      t'.parsing = Function.update t1.parsing w.filename false ∧
      t'.trace = t1.trace ++ [Event.Lock, Event.parsingWrite w.filename false]
        ++ w.on_done.toList.map Event.callback ++ [Event.Unlock] := by
  unfold parse at h
  cases hg : GetTranslationUnit E w.filename w.options w.options_script none t with
  | none => rw [hg] at h; cases h
  | some p =>
    obtain ⟨t1, r⟩ := p
    rw [hg] at h
    cases hd : w.on_done <;> simp only [hd] at h <;> cases h <;>
      exact ⟨t1, rfl, rfl, rfl, rfl, rfl, by simp [TranslationUnitCache.emit]⟩

/-! ## Counting the jobs of a path -/

theorem jobsFor_append (P : String) (a b : List workunit) :
    jobsFor P (a ++ b) = jobsFor P a + jobsFor P b := by
  simp [jobsFor, List.countP_append]

theorem jobsFor_eraseIdx (P : String) (l : List workunit) (i : Nat) (w : workunit)
    (h : l[i]? = some w) :
    jobsFor P (l.eraseIdx i) + (if w.filename = P then 1 else 0) = jobsFor P l := by
  induction l generalizing i with
  | nil => simp at h
  | cons a l ih =>
    cases i with
    | zero =>
      simp at h
      subst h
      simp [jobsFor, List.countP_cons]
    | succ i =>
      simp at h
      have := ih i h
      simp [jobsFor, List.countP_cons] at this ⊢
      omega

theorem OneJob_keep (t t' : TranslationUnitCache) (ex : List workunit)
    (hi : OneJob ⟨t, ex⟩) (hq : t'.queue = t.queue) (hp : t'.parsing = t.parsing) :
    OneJob ⟨t', ex⟩ := by
  intro P
  have := hi P
  simpa [hq, hp] using this

theorem OneJob_enqueue (t t' : TranslationUnitCache) (ex : List workunit) (w : workunit)
    (hi : OneJob ⟨t, ex⟩) (hm : t.parsing w.filename = false)
    (hq : t'.queue = t.queue ++ [w])
    (hp : t'.parsing = Function.update t.parsing w.filename true) :
    OneJob ⟨t', ex⟩ := by
  intro P
  have hP := hi P
  simp only [hq, hp, jobsFor_append] at hP ⊢
  by_cases hw : w.filename = P
  · subst hw
    have h0 : jobsFor w.filename t.queue + jobsFor w.filename ex = 0 := by
      by_contra hc
      have := hP.2.2 (Nat.pos_of_ne_zero hc)
      rw [hm] at this
      cases this
    have h1 : jobsFor w.filename [w] = 1 := by simp [jobsFor]
    simp only [h1, Function.update_same]
    constructor
    · omega
    · simp
  · have h1 : jobsFor P [w] = 0 := by simp [jobsFor, hw]
    have h2 : P ≠ w.filename := fun e => hw e.symm
    simp only [h1, Function.update_noteq h2]
    simpa using hP

theorem OneJob_step (E : Engine) (s s' : System) (hi : OneJob s) (hs : Step E s s') :
    OneJob s' := by
  cases hs with
  | addEx w t h =>
    rcases (addEx_effect w s.cache t h).2.2 with ⟨hq, hp⟩ | ⟨hm, hq, hp⟩
    · exact OneJob_keep s.cache t s.executing hi hq hp
    · exact OneJob_enqueue s.cache t s.executing w hi hm hq hp
  | GetTranslationUnit P O sc u t ret h =>
    rcases GetTranslationUnit_effect E P O sc u s.cache t ret h with ⟨hq, hp⟩ | ⟨hm, hq, hp⟩
    · exact OneJob_keep s.cache t s.executing hi hq hp
    · exact OneJob_enqueue s.cache t s.executing ⟨P, O, sc, none⟩ hi hm hq hp
  | workerTake _ h =>
    unfold libclang.workerTake at h
    cases hq : s.cache.queue with
    | nil => rw [hq] at h; cases h
    | cons w q =>
      rw [hq] at h
      cases h
      intro P
      have hP := hi P
      simp only [hq, jobsFor_append] at hP ⊢
      have hc : jobsFor P (w :: q) = jobsFor P q + jobsFor P [w] := by
        simp [jobsFor, List.countP_cons]
      simp only [emit_parsing]
      rw [hc] at hP
      constructor
      · omega
      · rw [hP.2]
        constructor <;> intro h <;> omega
  | workerRun _ i h =>
    unfold libclang.workerRun at h
    cases hw : s.executing[i]? with
    | none => rw [hw] at h; cases h
    | some w =>
      rw [hw] at h
      cases hp : parse E w s.cache with
      | none => simp [hp] at h
      | some p =>
        obtain ⟨t, ret⟩ := p
        simp only [hp, Option.some.injEq] at h
        subst h
        obtain ⟨t1, hg, -, hq, -, hpar, -⟩ := parse_effect E w s.cache t ret hp
        have hcnt := fun P => jobsFor_eraseIdx P s.executing i w hw
        have hwP := hi w.filename
        have hpos : 0 < jobsFor w.filename (s.cache.queue ++ s.executing) := by
          have := hcnt w.filename
          simp only [jobsFor_append, if_true] at this ⊢
          omega
        have hmark : s.cache.parsing w.filename = true := hwP.2.2 hpos
        have hkeep : t1.queue = s.cache.queue ∧ t1.parsing = s.cache.parsing := by
          rcases GetTranslationUnit_effect E _ _ _ _ s.cache t1 ret hg with h1 | ⟨hm, -, -⟩
          · exact h1
          · rw [hmark] at hm; cases hm
        intro P
        have hP := hi P
        have hc := hcnt P
        simp only [hq, hpar, hkeep.1, hkeep.2, jobsFor_append] at hP hwP hpos ⊢
        by_cases hf : w.filename = P
        · subst hf
          simp only [if_true] at hc
          simp only [Function.update_same]
          constructor
          · omega
          · constructor
            · intro h; cases h
            · intro h; omega
        · have h2 : P ≠ w.filename := fun e => hf e.symm
          simp only [hf, if_false] at hc
          simp only [Function.update_noteq h2]
          rw [Nat.add_zero] at hc
          rw [hc]
          exact hP

theorem OneJob_reachable (E : Engine) (s : System) (h : Reachable E s) : OneJob s := by
  induction h with
  | init =>
    intro P
    simp [jobsFor, NewTranslationUnitCache]
  | step s s' _ hs ih => exact OneJob_step E s s' ih hs

theorem markedCache_reached :
    (((GetTranslationUnit okEngine "a.cc" (some ["-std=c++11"]) "" none
        NewTranslationUnitCache).bind
      (fun p => GetTranslationUnit okEngine "a.cc" (some ["-std=c++11"]) "" none p.1)).bind
      (fun p => GetTranslationUnit okEngine "a.cc" (some ["-std=c++11"]) "" none p.1)).map
      (fun p => (p.1.lut "a.cc", p.1.parsing "a.cc", p.1.queue, p.1.nextAddr, p.2))
    = some (markedCache.lut "a.cc", markedCache.parsing "a.cc", markedCache.queue,
        markedCache.nextAddr, markedCache.lut "a.cc") := by
  decide

/-! ## C1: option-change invalidation -/

/-- C1, as stated, fails: in `markedCache` the path `a.cc` maps to a handle
recorded with nil options and is already marked parsing; a request with options
`["-std=c++17"]` evicts the entry and returns the old handle, but no job with
the requested options is put on the work queue. -/
theorem GetTranslationUnit_option_change_counterexample :
    markedCache.lut "a.cc" = some ⟨1, ⟨21⟩, none, ""⟩ ∧
    Slice.elems (some ["-std=c++17"]) ≠ Slice.elems none ∧
    ¬ ∃ t' ret, GetTranslationUnit okEngine "a.cc" (some ["-std=c++17"]) "" none markedCache
          = some (t', ret) ∧
        t'.lut "a.cc" = none ∧ t'.parsing "a.cc" = true ∧
        (∃ w ∈ t'.queue, w.filename = "a.cc" ∧ w.options = some ["-std=c++17"]) ∧
        ret = some ⟨1, ⟨21⟩, none, ""⟩ := by
  refine ⟨by decide, by decide, ?_⟩
  rintro ⟨t', ret, h, -, -, ⟨w, hw, -, ho⟩, -⟩
  have hq : (GetTranslationUnit okEngine "a.cc" (some ["-std=c++17"]) "" none markedCache).map
      (fun p => p.1.queue) = some [⟨"a.cc", some ["-std=c++11"], "", none⟩] := by decide
  rw [h] at hq
  simp only [Option.map_some', Option.some.injEq] at hq
  rw [hq] at hw
  simp only [List.mem_singleton] at hw
  subst hw
  exact absurd ho (by decide)

/-- C1 (amended): when `P` maps to `H1` and the requested options differ from the
recorded ones as an ordered sequence (a reordering included) or the scripts
differ, `GetTranslationUnit` removes the entry of `P` and returns `H1` itself;
if `P` was not marked parsing and the queue has room, it marks `P` parsing and
appends one job for `P` with the requested options and script; if `P` was
already marked parsing, no job is added and `P` stays marked; with `P` unmarked
and the queue full, the call blocks in the channel send. -/
theorem GetTranslationUnit_option_change (E : Engine) (P : String) (O2 : Slice) (s2 : String)
    (u : Option (List (String × String))) (t : TranslationUnitCache)
    (H1 : LockedTranslationUnit) (hl : t.lut P = some H1)
    (hne : H1.opts.elems ≠ O2.elems ∨ H1.opts_script ≠ s2) :
    (t.parsing P = false → t.queue.length < WORK_QUEUE_LEN →
      ∃ t', GetTranslationUnit E P O2 s2 u t = some (t', some H1) ∧
        t'.lut = Function.update t.lut P none ∧
        t'.parsing = Function.update t.parsing P true ∧
        t'.queue = t.queue ++ [⟨P, O2, s2, none⟩]) ∧
    (t.parsing P = true →
      ∃ t', GetTranslationUnit E P O2 s2 u t = some (t', some H1) ∧
        t'.lut = Function.update t.lut P none ∧
        t'.parsing = t.parsing ∧ t'.queue = t.queue) ∧
    (t.parsing P = false → ¬ t.queue.length < WORK_QUEUE_LEN →
      GetTranslationUnit E P O2 s2 u t = none) := by
  have hne2 : H1.opts ≠ O2 ∨ H1.opts_script ≠ s2 := by
    rcases hne with h | h
    · exact Or.inl (fun e => h (by rw [e]))
    · exact Or.inr h
  have hev : (evicted P t).lut P = none := by simp [evicted]
  rw [GetTranslationUnit_changed E P O2 s2 u t H1 hl hne2]
  refine ⟨fun hp hq => ?_, fun hp => ?_, fun hp hq => ?_⟩
  · rw [addEx_enqueue ⟨P, O2, s2, none⟩ (evicted P t) hev hp hq]
    exact ⟨_, rfl, rfl, rfl, rfl⟩
  · rw [addEx_marked ⟨P, O2, s2, none⟩ (evicted P t) hev hp]
    exact ⟨_, rfl, rfl, rfl, rfl⟩
  · rw [addEx_blocked ⟨P, O2, s2, none⟩ (evicted P t) hev hp hq]
    rfl

/-- C1 at a concrete input: a mere reordering of the recorded options evicts the
entry, schedules a job with the reordered options and returns the old handle. -/
theorem GetTranslationUnit_option_change_witness :
    twoOptionCache.lut "a.cc" = some ⟨0, ⟨1⟩, some ["-I.", "-DX"], ""⟩ ∧
    (Slice.elems (some ["-I.", "-DX"]) ≠ Slice.elems (some ["-DX", "-I."])) ∧
    ∃ t', GetTranslationUnit okEngine "a.cc" (some ["-DX", "-I."]) "" none twoOptionCache
        = some (t', some ⟨0, ⟨1⟩, some ["-I.", "-DX"], ""⟩) ∧
      t'.lut = Function.update twoOptionCache.lut "a.cc" none ∧
      t'.parsing = Function.update twoOptionCache.parsing "a.cc" true ∧
      t'.queue = twoOptionCache.queue ++ [⟨"a.cc", some ["-DX", "-I."], "", none⟩] :=
  ⟨by decide, by decide,
    (GetTranslationUnit_option_change okEngine "a.cc" (some ["-DX", "-I."]) "" none
      twoOptionCache ⟨0, ⟨1⟩, some ["-I.", "-DX"], ""⟩ (by decide)
      (Or.inl (by decide))).1 (by decide) (by decide)⟩

/-! ## C2: repeating a request -/

/-- C2 fails on the code: on a new cache, calls in a row with `P = "a.cc"`,
`O = ["-std=c++11"]` and an empty script: the first call parses and returns the
handle at address 0; the second returns the same handle without a parse, but
finds nil recorded options, removes the entry of `P`, marks `P` parsing and
enqueues a job; the third call parses again and returns another handle (address
1). -/
theorem GetTranslationUnit_repeat_evicts :
    repeatedRequest
      = some (some ⟨0, ⟨4⟩, none, ""⟩, some ⟨0, ⟨4⟩, none, ""⟩, some ⟨1, ⟨21⟩, none, ""⟩,
          none, true, [⟨"a.cc", some ["-std=c++11"], "", none⟩], 1, 2) := by
  rfl

/-! ## C3: a failed parse -/

/-- C3 fails on the code: with an engine whose `Parse` returns an invalid
artifact, `GetTranslationUnit` on a path without entry returns a handle (not
nil) wrapping the invalid artifact and stores it under the path. -/
theorem GetTranslationUnit_stores_invalid :
    (failEngine.Parse 3 "a.cc" (some ["-std=c++11"]) index_parse_options).IsValid = false ∧
    NewTranslationUnitCache.lut "a.cc" = none ∧
    (GetTranslationUnit failEngine "a.cc" (some ["-std=c++11"]) "" none
        NewTranslationUnitCache).map (fun p => (p.2, p.1.lut "a.cc", p.1.trace))
      = some (some ⟨0, ⟨0⟩, none, ""⟩, some ⟨0, ⟨0⟩, none, ""⟩,
          [Event.Lock, Event.lutRead "a.cc", Event.Unlock,
           Event.indexParse "a.cc" (some ["-std=c++11"]) 0,
           Event.Lock, Event.lutWrite "a.cc" 0, Event.Unlock]) := by
  decide

/-! ## C4: the recorded options -/

/-- C4 fails on the code: after a successful first request for `a.cc` with
options `["-std=c++11"]` and script `"opts.sh"`, the engine was called with
these options, but the handle stored and returned records nil options and an
empty script. -/
theorem GetTranslationUnit_records_no_options :
    (GetTranslationUnit okEngine "a.cc" (some ["-std=c++11"]) "opts.sh" none
        NewTranslationUnitCache).map
      (fun p => (p.2.map (fun tu => (tu.opts, tu.opts_script)),
        (p.1.lut "a.cc").map (fun tu => (tu.opts, tu.opts_script)),
        p.1.trace.filter Event.isIndexParse))
      = some (some (none, ""), some (none, ""),
          [Event.indexParse "a.cc" (some ["-std=c++11"]) 0]) := by
  rfl

/-! ## C6: the gate of `addEx` -/

theorem fullCache_reached :
    (["0.cc", "1.cc", "2.cc", "3.cc", "4.cc", "5.cc", "6.cc", "7.cc", "8.cc", "9.cc"].foldlM
      (fun t f => addEx ⟨f, none, "", none⟩ t) NewTranslationUnitCache).map
      (fun t => (t.queue, t.lut "a.cc", t.parsing "a.cc", t.parsing "3.cc"))
    = some (fullCache.queue, fullCache.lut "a.cc", fullCache.parsing "a.cc",
        fullCache.parsing "3.cc") := by
  decide

/-- C6, as stated, fails: in `fullCache` the path `a.cc` has no entry and is not
marked parsing, yet `addEx` for it does not return with the job appended: the
channel holds `WORK_QUEUE_LEN` jobs and the send blocks. -/
theorem addEx_gate_counterexample :
    fullCache.lut "a.cc" = none ∧ fullCache.parsing "a.cc" = false ∧
    ¬ ∃ t', addEx ⟨"a.cc", none, "", none⟩ fullCache = some t' ∧
      t'.queue = fullCache.queue ++ [⟨"a.cc", none, "", none⟩] := by
  refine ⟨by decide, by decide, ?_⟩
  rintro ⟨t', h, -⟩
  rw [addEx_blocked _ _ (by decide) (by decide) (by decide)] at h
  cases h

/-- C6 (amended): if the path of `w` has no entry, is not marked parsing and the
queue holds fewer than `WORK_QUEUE_LEN` jobs, `addEx w` marks the path parsing
and appends exactly `w` at the end of the queue, leaving the map, the other
markers and the allocator unchanged; with the gate open and the queue full it
blocks in the send; otherwise (entry present, or already marked) it returns
leaving map, markers and queue unchanged. -/
theorem addEx_gate (w : workunit) (t : TranslationUnitCache) :
    (t.lut w.filename = none ∧ t.parsing w.filename = false →
      (t.queue.length < WORK_QUEUE_LEN →
        ∃ t', addEx w t = some t' ∧ t'.lut = t.lut ∧
          t'.parsing = Function.update t.parsing w.filename true ∧
          t'.queue = t.queue ++ [w] ∧ t'.nextAddr = t.nextAddr) ∧
      (¬ t.queue.length < WORK_QUEUE_LEN → addEx w t = none)) ∧
    (¬ (t.lut w.filename = none ∧ t.parsing w.filename = false) →
      ∃ t', addEx w t = some t' ∧ t'.lut = t.lut ∧ t'.parsing = t.parsing ∧
        t'.queue = t.queue ∧ t'.nextAddr = t.nextAddr) := by
  refine ⟨fun h => ⟨fun hq => ?_, fun hq => addEx_blocked w t h.1 h.2 hq⟩, fun h => ?_⟩
  · exact ⟨_, addEx_enqueue w t h.1 h.2 hq, rfl, rfl, rfl, rfl⟩
  · cases hl : t.lut w.filename with
    | some tu => exact ⟨_, addEx_present w t tu hl, rfl, rfl, rfl, rfl⟩
    | none =>
      cases hp : t.parsing w.filename with
      | true => exact ⟨_, addEx_marked w t hl hp, rfl, rfl, rfl, rfl⟩
      | false => exact absurd ⟨hl, hp⟩ h

/-- C6 at concrete inputs: on a new cache `addEx` for `a.cc` enqueues the job and
marks the path; on `markedCache`, where `a.cc` has an entry, it changes nothing. -/
theorem addEx_gate_witness :
    (∃ t', addEx ⟨"a.cc", some ["-O2"], "", some 7⟩ NewTranslationUnitCache = some t' ∧
      t'.lut = NewTranslationUnitCache.lut ∧
      t'.parsing = Function.update NewTranslationUnitCache.parsing "a.cc" true ∧
      t'.queue = NewTranslationUnitCache.queue ++ [⟨"a.cc", some ["-O2"], "", some 7⟩] ∧
      t'.nextAddr = NewTranslationUnitCache.nextAddr) ∧
    (∃ t', addEx ⟨"a.cc", some ["-O2"], "", some 7⟩ markedCache = some t' ∧
      t'.lut = markedCache.lut ∧ t'.parsing = markedCache.parsing ∧
      t'.queue = markedCache.queue ∧ t'.nextAddr = markedCache.nextAddr) :=
  ⟨((addEx_gate ⟨"a.cc", some ["-O2"], "", some 7⟩ NewTranslationUnitCache).1
      ⟨by decide, by decide⟩).1 (by decide),
   (addEx_gate ⟨"a.cc", some ["-O2"], "", some 7⟩ markedCache).2 (by decide)⟩

/-! ## C5: the invariant of the reachable states -/

theorem addExAll_marked (P : String) (ws : List workunit) (t : TranslationUnitCache)
    (hp : t.parsing P = true) (hw : ∀ w ∈ ws, w.filename = P) :
    ∃ t', addExAll ws t = some t' ∧ t'.lut = t.lut ∧ t'.queue = t.queue ∧
      t'.parsing = t.parsing := by
  induction ws generalizing t with
  | nil => exact ⟨t, rfl, rfl, rfl, rfl⟩
  | cons w ws ih =>
    have hf : w.filename = P := hw w (List.mem_cons_self _ _)
    have hpw : t.parsing w.filename = true := by rw [hf]; exact hp
    obtain ⟨t1, h1, hl1, hq1, hp1⟩ : ∃ t1, addEx w t = some t1 ∧ t1.lut = t.lut ∧
        t1.queue = t.queue ∧ t1.parsing = t.parsing := by
      cases hl : t.lut w.filename with
      | some tu => exact ⟨_, addEx_present w t tu hl, rfl, rfl, rfl⟩
      | none => exact ⟨_, addEx_marked w t hl hpw, rfl, rfl, rfl⟩
    obtain ⟨t', h2, hl2, hq2, hp2⟩ := ih t1 (by rw [hp1]; exact hp)
      (fun w' hw' => hw w' (List.mem_cons_of_mem _ hw'))
    refine ⟨t', ?_, by rw [hl2, hl1], by rw [hq2, hq1], by rw [hp2, hp1]⟩
    simp only [addExAll, List.foldlM_cons, h1, Option.bind_eq_bind, Option.some_bind]
    exact h2

/-- C5: in every state reachable from `NewTranslationUnitCache()` by `addEx`,
`GetTranslationUnit` and worker steps, at most one job per path is queued or
executing and a path with such a job is marked parsing; and while `P` is
marked parsing any number of `addEx` calls for `P` return without adding a
job, so that exactly one job for `P` is queued or executing. -/
theorem at_most_one_job_per_path (E : Engine) (s : System) (h : Reachable E s) (P : String) :
    jobsFor P (s.cache.queue ++ s.executing) ≤ 1 ∧
    (0 < jobsFor P (s.cache.queue ++ s.executing) → s.cache.parsing P = true) ∧
    (s.cache.parsing P = true → ∀ ws : List workunit, (∀ w ∈ ws, w.filename = P) →
      ∃ t', addExAll ws s.cache = some t' ∧ t'.queue = s.cache.queue ∧
        t'.parsing P = true ∧ jobsFor P (t'.queue ++ s.executing) = 1) := by
  have hi := OneJob_reachable E s h P
  refine ⟨hi.1, hi.2.2, fun hp ws hw => ?_⟩
  obtain ⟨t', h1, -, hq, hpar⟩ := addExAll_marked P ws s.cache hp hw
  refine ⟨t', h1, hq, by rw [hpar]; exact hp, ?_⟩
  have hpos := hi.2.1 hp
  rw [hq]
  have := hi.1
  omega

/-- C5 at a concrete input: after one `addEx` for `a.cc` on a new cache, two
more `addEx` calls for `a.cc` leave exactly one job for it. -/
theorem at_most_one_job_per_path_witness :
    Reachable okEngine ⟨enqueued ⟨"a.cc", none, "", none⟩ NewTranslationUnitCache, []⟩ ∧
    ∃ t', addExAll [⟨"a.cc", some ["-g"], "", none⟩, ⟨"a.cc", none, "x.sh", some 1⟩]
        (enqueued ⟨"a.cc", none, "", none⟩ NewTranslationUnitCache) = some t' ∧
      t'.queue = [⟨"a.cc", none, "", none⟩] ∧ t'.parsing "a.cc" = true ∧
      jobsFor "a.cc" (t'.queue ++ []) = 1 := by
  have hr : Reachable okEngine
      ⟨enqueued ⟨"a.cc", none, "", none⟩ NewTranslationUnitCache, []⟩ :=
    Reachable.step _ _ Reachable.init
      (Step.addEx ⟨NewTranslationUnitCache, []⟩ ⟨"a.cc", none, "", none⟩ _
        (addEx_enqueue _ _ (by decide) (by decide) (by decide)))
  exact ⟨hr, (at_most_one_job_per_path okEngine _ hr "a.cc").2.2 (by decide) _ (by decide)⟩

/-! ## C7: completion of unsaved files -/

theorem utf8ByteSize_ne_zero (s : String) (h : s ≠ "") : s.utf8ByteSize ≠ 0 := by
  cases s with
  | mk l =>
    cases l with
    | nil => exact absurd rfl h
    | cons c cs =>
      have hc := Char.utf8Size_pos c
      simp only [String.utf8ByteSize, String.utf8ByteSize.go]
      omega

/-- C7: when the target file of the request has non-empty `Contents`,
`CompleteAt` returns the "unsupported" error and leaves the result object and
the cache as they were; the trace of the cache is unchanged too, so neither
`Parse` nor the artifact's `CompleteAt` is called, whether or not the file has
a handle. -/
theorem CompleteAt_unsaved (E : Engine) (FLAG_TYPE_CLASS : Nat) (args : CompleteAtArgs)
    (res : CompletionResult) (t : TranslationUnitCache)
    (h : args.Location.File.Contents ≠ "") :
    CompleteAt E FLAG_TYPE_CLASS args res t
      = (t, res, some "Unfortunately completion of unsaved files is currently not supported") := by
  have hb := utf8ByteSize_ne_zero _ h
  simp [CompleteAt, hb]

/-- C7 at a concrete input: a request for `a.cc` with contents `int x;` on a
cache that has a handle for `a.cc`. -/
theorem CompleteAt_unsaved_witness :
    (⟨⟨⟨"a.cc", "int x;"⟩, 1, 5⟩⟩ : CompleteAtArgs).Location.File.Contents ≠ "" ∧
    markedCache.lut "a.cc" ≠ none ∧
    CompleteAt okEngine 1 ⟨⟨⟨"a.cc", "int x;"⟩, 1, 5⟩⟩ ⟨[], []⟩ markedCache
      = (markedCache, ⟨[], []⟩,
          some "Unfortunately completion of unsaved files is currently not supported") :=
  ⟨by decide, by decide,
    CompleteAt_unsaved okEngine 1 ⟨⟨⟨"a.cc", "int x;"⟩, 1, 5⟩⟩ ⟨[], []⟩ markedCache (by decide)⟩

/-! ## C8: `parse` clears the marker -/

theorem addEx_callbacks (w : workunit) (t t' : TranslationUnitCache) (h : addEx w t = some t') :
    t'.trace.countP Event.isCallback = t.trace.countP Event.isCallback := by
  cases hl : t.lut w.filename with
  | some tu =>
    rw [addEx_present w t tu hl] at h
    cases h
    simp [TranslationUnitCache.emit, List.countP_append, List.countP_cons, Event.isCallback]
  | none =>
    cases hp : t.parsing w.filename with
    | true =>
      rw [addEx_marked w t hl hp] at h
      cases h
      simp [TranslationUnitCache.emit, List.countP_append, List.countP_cons, Event.isCallback]
    | false =>
      by_cases hq : t.queue.length < WORK_QUEUE_LEN
      · rw [addEx_enqueue w t hl hp hq] at h
        cases h
        simp [enqueued, List.countP_append, List.countP_cons, Event.isCallback]
      · rw [addEx_blocked w t hl hp hq] at h
        cases h

theorem GetTranslationUnit_callbacks (E : Engine) (P : String) (O : Slice) (s : String)
    (u : Option (List (String × String))) (t t' : TranslationUnitCache)
    (ret : Option LockedTranslationUnit)
    (h : GetTranslationUnit E P O s u t = some (t', ret)) :
    t'.trace.countP Event.isCallback = t.trace.countP Event.isCallback := by
  cases hl : t.lut P with
  | none =>
    rw [GetTranslationUnit_absent E P O s u t hl] at h
    cases h
    simp [stored, List.countP_append, List.countP_cons, Event.isCallback]
  | some tu =>
    by_cases hne : tu.opts ≠ O ∨ tu.opts_script ≠ s
    · rw [GetTranslationUnit_changed E P O s u t tu hl hne] at h
      cases ha : addEx ⟨P, O, s, none⟩ (evicted P t) with
      | none => rw [ha] at h; cases h
      | some t4 =>
        rw [ha] at h
        cases h
        rw [addEx_callbacks _ _ _ ha]
        simp [evicted, List.countP_append, List.countP_cons, Event.isCallback]
    · have ho : tu.opts = O := by
        by_contra hc
        exact hne (Or.inl hc)
      have hs : tu.opts_script = s := by
        by_contra hc
        exact hne (Or.inr hc)
      rw [GetTranslationUnit_same E P O s u t tu hl ho hs] at h
      cases h
      simp [TranslationUnitCache.emit, List.countP_append, List.countP_cons, Event.isCallback]

theorem GetTranslationUnit_returns (E : Engine) (P : String) (O : Slice) (s : String)
    (u : Option (List (String × String))) (t : TranslationUnitCache)
    (hq : t.queue.length < WORK_QUEUE_LEN) :
    ∃ t' ret, GetTranslationUnit E P O s u t = some (t', ret) := by
  cases hl : t.lut P with
  | none => exact ⟨_, _, GetTranslationUnit_absent E P O s u t hl⟩
  | some tu =>
    by_cases hne : tu.opts ≠ O ∨ tu.opts_script ≠ s
    · rw [GetTranslationUnit_changed E P O s u t tu hl hne]
      have hev : (evicted P t).lut P = none := by simp [evicted]
      cases hp : t.parsing P with
      | true =>
        rw [addEx_marked ⟨P, O, s, none⟩ (evicted P t) hev hp]
        exact ⟨_, _, rfl⟩
      | false =>
        rw [addEx_enqueue ⟨P, O, s, none⟩ (evicted P t) hev hp hq]
        exact ⟨_, _, rfl⟩
    · have ho : tu.opts = O := by
        by_contra hc
        exact hne (Or.inl hc)
      have hs : tu.opts_script = s := by
        by_contra hc
        exact hne (Or.inr hc)
      exact ⟨_, _, GetTranslationUnit_same E P O s u t tu hl ho hs⟩

/-- C8: `parse w` returns whenever the queue has room, and whenever it returns:
the marker of `w.filename` is false (whatever handle, or none, was produced);
the value returned is the one `GetTranslationUnit(w.filename, w.options,
w.options_script, nil)` returned; after that call the trace continues with the
lock, the write of `false` to the marker, then the callback if `w.on_done` is
not nil, then the unlock; and the callback is invoked once if present and not
at all otherwise. -/
theorem parse_clears_marker (E : Engine) (w : workunit) (t : TranslationUnitCache) :
    (t.queue.length < WORK_QUEUE_LEN → ∃ t' ret, parse E w t = some (t', ret)) ∧
    (∀ t' ret, parse E w t = some (t', ret) →
      t'.parsing w.filename = false ∧
      ∃ t1, GetTranslationUnit E w.filename w.options w.options_script none t
          = some (t1, ret) ∧
        t'.trace = t1.trace ++ [Event.Lock, Event.parsingWrite w.filename false]
          ++ w.on_done.toList.map Event.callback ++ [Event.Unlock] ∧
        t1.trace.countP Event.isCallback = t.trace.countP Event.isCallback ∧
        t'.trace.countP Event.isCallback
          = t.trace.countP Event.isCallback + (if w.on_done = none then 0 else 1)) := by
  constructor
  · intro hq
    obtain ⟨t1, ret, hg⟩ :=
      GetTranslationUnit_returns E w.filename w.options w.options_script none t hq
    cases hd : w.on_done <;> simp [parse, hg, hd]
  · intro t' ret h
    obtain ⟨t1, hg, -, -, -, hpar, htr⟩ := parse_effect E w t t' ret h
    have hc := GetTranslationUnit_callbacks E _ _ _ _ t t1 ret hg
    refine ⟨by rw [hpar]; simp, t1, hg, htr, hc, ?_⟩
    rw [htr, ← hc]
    cases hd : w.on_done <;>
      simp [List.countP_append, List.countP_cons, Event.isCallback]

/-- C8 at a concrete input: `parse` of a work unit for `a.cc` with callback `7`
on `markedCache` returns the handle of `a.cc`, clears the marker and invokes
the callback once. -/
theorem parse_clears_marker_witness :
    markedCache.queue.length < WORK_QUEUE_LEN ∧
    (∃ t' ret, parse okEngine ⟨"a.cc", none, "", some 7⟩ markedCache = some (t', ret)) ∧
    (parse okEngine ⟨"a.cc", none, "", some 7⟩ markedCache).map
      (fun p => (p.1.parsing "a.cc", p.2, p.1.trace))
      = some (false, some ⟨1, ⟨21⟩, none, ""⟩,
          [Event.Lock, Event.lutRead "a.cc", Event.Unlock, Event.Lock,
           Event.parsingWrite "a.cc" false, Event.callback 7, Event.Unlock]) :=
  ⟨by decide, (parse_clears_marker okEngine ⟨"a.cc", none, "", some 7⟩ markedCache).1
    (by decide), by rfl⟩

/-! ## C9: `reparse` and the map -/

theorem nilOptionCache_reached :
    (GetTranslationUnit okEngine "a.cc" none "" none NewTranslationUnitCache).map
      (fun p => (p.1.lut "a.cc", p.1.parsing "a.cc", p.1.queue, p.1.nextAddr))
    = some (nilOptionCache.lut "a.cc", nilOptionCache.parsing "a.cc", nilOptionCache.queue,
        nilOptionCache.nextAddr) := by
  rfl

/-- C9, as stated, fails: in `nilOptionCache` the path `a.cc` maps to a handle
`H`; `reparse` of a work item for `a.cc` whose options `["-std=c++17"]` differ
from the ones recorded in `H` does not leave `a.cc` mapped to `H`: the entry is
removed. -/
theorem reparse_counterexample :
    nilOptionCache.lut "a.cc" = some ⟨0, ⟨4⟩, none, ""⟩ ∧
    ¬ ∃ t', reparse okEngine ⟨"a.cc", some ["-std=c++17"], "", none⟩ nilOptionCache = some t' ∧
      t'.lut "a.cc" = some ⟨0, ⟨4⟩, none, ""⟩ := by
  refine ⟨by decide, ?_⟩
  rintro ⟨t', h, hl⟩
  have he : (reparse okEngine ⟨"a.cc", some ["-std=c++17"], "", none⟩ nilOptionCache).map
      (fun t => t.lut "a.cc") = some none := by rfl
  rw [h] at he
  simp only [Option.map_some', Option.some.injEq] at he
  rw [he] at hl
  cases hl

/-- C9 (amended): when the path of `w` maps to `H` and the options and script of
`w` equal the ones recorded in `H`, `reparse w` returns, leaves the map as it
was (the path still maps to the same `H`, no entry added or removed), leaves
the queue unchanged, and its last actions are the lock of `H`, `Reparse(0)` on
the artifact of `H` and the unlock of `H`; when the options or the script
differ, a returning `reparse w` has removed the entry of the path. -/
theorem reparse_map (E : Engine) (w : workunit) (t : TranslationUnitCache)
    (H : LockedTranslationUnit) (hl : t.lut w.filename = some H) :
    (H.opts = w.options ∧ H.opts_script = w.options_script →
      ∃ t', reparse E w t = some t' ∧ t'.lut = t.lut ∧ t'.queue = t.queue ∧
        t'.nextAddr = t.nextAddr ∧
        t'.trace = t.trace ++ [Event.Lock, Event.lutRead w.filename, Event.Unlock,
            Event.Lock, Event.parsingWrite w.filename false]
          ++ w.on_done.toList.map Event.callback
          ++ [Event.Unlock, Event.tuLock H.addr,
              Event.tuReparse H.addr H.TranslationUnit.c 0, Event.tuUnlock H.addr]) ∧
    (H.opts ≠ w.options ∨ H.opts_script ≠ w.options_script →
      ∀ t', reparse E w t = some t' → t'.lut = Function.update t.lut w.filename none) := by
  constructor
  · rintro ⟨ho, hs⟩
    have hg := GetTranslationUnit_same E w.filename w.options w.options_script none t H hl ho hs
    cases hd : w.on_done <;>
      simp [reparse, parse, hg, hd, TranslationUnitCache.emit]
  · intro hne t' h
    unfold reparse at h
    cases hp : parse E w t with
    | none => simp [hp] at h
    | some p =>
      obtain ⟨t2, ret⟩ := p
      obtain ⟨t1, hg, hlut, -, -, -, -⟩ := parse_effect E w t t2 ret hp
      rw [GetTranslationUnit_changed E _ _ _ none t H hl hne] at hg
      cases ha : addEx ⟨w.filename, w.options, w.options_script, none⟩ (evicted w.filename t) with
      | none => simp [ha] at hg
      | some t4 =>
        simp only [ha, Option.map_some', Option.some.injEq, Prod.mk.injEq] at hg
        obtain ⟨h1, h2⟩ := hg
        subst h1
        subst h2
        have hl4 := (addEx_effect _ _ _ ha).1
        simp only [hp, Option.some.injEq] at h
        subst h
        simp only [emit_lut, hlut, hl4]
        rfl

/-- C9 at a concrete input: `reparse` of a work unit for `a.cc` with the
recorded (nil) options on `nilOptionCache` keeps the entry. -/
theorem reparse_map_witness :
    nilOptionCache.lut "a.cc" = some ⟨0, ⟨4⟩, none, ""⟩ ∧
    ∃ t', reparse okEngine ⟨"a.cc", none, "", some 3⟩ nilOptionCache = some t' ∧
      t'.lut = nilOptionCache.lut ∧ t'.queue = nilOptionCache.queue ∧
      t'.nextAddr = nilOptionCache.nextAddr ∧
      t'.trace = nilOptionCache.trace ++ [Event.Lock, Event.lutRead "a.cc", Event.Unlock,
            Event.Lock, Event.parsingWrite "a.cc" false]
          ++ (some 3).toList.map Event.callback
          ++ [Event.Unlock, Event.tuLock 0, Event.tuReparse 0 4 0, Event.tuUnlock 0] :=
  ⟨by decide,
    (reparse_map okEngine ⟨"a.cc", none, "", some 3⟩ nilOptionCache ⟨0, ⟨4⟩, none, ""⟩
      (by decide)).1 ⟨by decide, by decide⟩⟩

/-! ## C10: the option-change scenario -/

/-- C10 fails on the code: in the scenario the first two calls return `H1`
(address 0) and the third returns a different handle `H2` (address 1), but
`H2` records nil options, not `["-std=c++17"]`, and after the third call
`a.cc` has no entry: the third call evicted `H2` and queued another job. -/
theorem option_change_scenario :
    optionChangeScenario
      = some (some ⟨0, ⟨4⟩, none, ""⟩, some ⟨0, ⟨4⟩, none, ""⟩, some ⟨1, ⟨22⟩, none, ""⟩,
          none, true, [⟨"a.cc", some ["-std=c++17"], "", none⟩]) := by
  rfl

/-! ## The outcomes of `addEx` and `GetTranslationUnit` -/

theorem addEx_outcomes (w : workunit) (t t' : TranslationUnitCache) (h : addEx w t = some t') :
    t' = t.emit [Event.Lock, Event.lutRead w.filename, Event.Unlock] ∨
    t' = t.emit [Event.Lock, Event.lutRead w.filename, Event.parsingRead w.filename,
      Event.Unlock] ∨
    (t.lut w.filename = none ∧ t.parsing w.filename = false ∧ t' = enqueued w t) := by
  cases hl : t.lut w.filename with
  | some tu =>
    rw [addEx_present w t tu hl] at h
    cases h
    exact Or.inl rfl
  | none =>
    cases hp : t.parsing w.filename with
    | true =>
      rw [addEx_marked w t hl hp] at h
      cases h
      exact Or.inr (Or.inl rfl)
    | false =>
      by_cases hq : t.queue.length < WORK_QUEUE_LEN
      · rw [addEx_enqueue w t hl hp hq] at h
        cases h
        exact Or.inr (Or.inr ⟨rfl, rfl, rfl⟩)
      · rw [addEx_blocked w t hl hp hq] at h
        cases h

theorem GetTranslationUnit_outcomes (E : Engine) (P : String) (O : Slice) (s : String)
    (u : Option (List (String × String))) (t t' : TranslationUnitCache)
    (ret : Option LockedTranslationUnit)
    (h : GetTranslationUnit E P O s u t = some (t', ret)) :
    (t.lut P = none ∧ t' = stored E P O t ∧ ret = some (freshHandle E P O t)) ∨
    (∃ H, t.lut P = some H ∧ ret = some H ∧
      (t' = t.emit [Event.Lock, Event.lutRead P, Event.Unlock] ∨
       t' = (evicted P t).emit [Event.Lock, Event.lutRead P, Event.parsingRead P,
          Event.Unlock] ∨
       (t.parsing P = false ∧ t' = enqueued ⟨P, O, s, none⟩ (evicted P t)))) := by
  cases hl : t.lut P with
  | none =>
    rw [GetTranslationUnit_absent E P O s u t hl] at h
    cases h
    exact Or.inl ⟨rfl, rfl, rfl⟩
  | some tu =>
    right
    by_cases hne : tu.opts ≠ O ∨ tu.opts_script ≠ s
    · rw [GetTranslationUnit_changed E P O s u t tu hl hne] at h
      cases ha : addEx ⟨P, O, s, none⟩ (evicted P t) with
      | none => rw [ha] at h; cases h
      | some t4 =>
        rw [ha] at h
        cases h
        have hev : (evicted P t).lut P = none := by simp [evicted]
        rcases addEx_outcomes _ _ _ ha with h1 | h1 | ⟨-, h2, h3⟩
        · cases hp : (evicted P t).parsing P with
          | true =>
            rw [addEx_marked ⟨P, O, s, none⟩ (evicted P t) hev hp] at ha
            cases ha
            exact ⟨tu, rfl, rfl, Or.inr (Or.inl rfl)⟩
          | false =>
            by_cases hq : (evicted P t).queue.length < WORK_QUEUE_LEN
            · rw [addEx_enqueue ⟨P, O, s, none⟩ (evicted P t) hev hp hq] at ha
              cases ha
              exact ⟨tu, rfl, rfl, Or.inr (Or.inr ⟨hp, rfl⟩)⟩
            · rw [addEx_blocked ⟨P, O, s, none⟩ (evicted P t) hev hp hq] at ha
              cases ha
        · exact ⟨tu, rfl, rfl, Or.inr (Or.inl h1)⟩
        · exact ⟨tu, rfl, rfl, Or.inr (Or.inr ⟨h2, h3⟩)⟩
    · have ho : tu.opts = O := by
        by_contra hc
        exact hne (Or.inl hc)
      have hs : tu.opts_script = s := by
        by_contra hc
        exact hne (Or.inr hc)
      rw [GetTranslationUnit_same E P O s u t tu hl ho hs] at h
      cases h
      exact ⟨tu, rfl, rfl, Or.inl rfl⟩

/-! ## C13: the frame of an operation on one path -/

theorem framed_keep (P Q : String) (t t' : TranslationUnitCache) (hl : t'.lut Q = t.lut Q)
    (hp : t'.parsing Q = t.parsing Q) (hq : t'.queue = t.queue) : framed P Q t t' :=
  ⟨hl, hp, by rw [hq], Or.inl hq⟩

theorem framed_append (P Q : String) (hPQ : Q ≠ P) (t t' : TranslationUnitCache) (j : workunit)
    (hj : j.filename = P) (hl : t'.lut Q = t.lut Q) (hp : t'.parsing Q = t.parsing Q)
    (hq : t'.queue = t.queue ++ [j]) : framed P Q t t' := by
  refine ⟨hl, hp, ?_, Or.inr ⟨j, hj, hq⟩⟩
  have hne : ¬ j.filename = Q := by
    rw [hj]
    exact fun e => hPQ e.symm
  rw [hq, List.filter_append]
  simp [hne]

theorem GetTranslationUnit_framed (E : Engine) (P Q : String) (hPQ : Q ≠ P) (O : Slice)
    (s : String) (u : Option (List (String × String))) (t t' : TranslationUnitCache)
    (ret : Option LockedTranslationUnit)
    (h : GetTranslationUnit E P O s u t = some (t', ret)) : framed P Q t t' := by
  rcases GetTranslationUnit_outcomes E P O s u t t' ret h with
    ⟨-, h1, -⟩ | ⟨H, -, -, h1 | h1 | ⟨-, h1⟩⟩
  · subst h1
    exact framed_keep P Q _ _ (by simp [stored, Function.update_noteq hPQ]) rfl rfl
  · subst h1
    exact framed_keep P Q _ _ rfl rfl rfl
  · subst h1
    exact framed_keep P Q _ _
      (by simp [evicted, TranslationUnitCache.emit, Function.update_noteq hPQ]) rfl rfl
  · subst h1
    exact framed_append P Q hPQ _ _ ⟨P, O, s, none⟩ rfl
      (by simp [enqueued, evicted, Function.update_noteq hPQ])
      (by simp [enqueued, evicted, Function.update_noteq hPQ]) rfl

theorem addEx_returns (w : workunit) (t : TranslationUnitCache)
    (hq : t.queue.length < WORK_QUEUE_LEN) : ∃ t', addEx w t = some t' := by
  cases hl : t.lut w.filename with
  | some tu => exact ⟨_, addEx_present w t tu hl⟩
  | none =>
    cases hp : t.parsing w.filename with
    | true => exact ⟨_, addEx_marked w t hl hp⟩
    | false => exact ⟨_, addEx_enqueue w t hl hp hq⟩

/-- C13: `GetTranslationUnit(P, ...)`, `addEx` with filename `P` and `parse`
with filename `P` return when the queue has room, and whenever they return
they leave, for every other path `Q`, the map entry of `Q` (presence and handle
instance), the marker of `Q` and the queued jobs for `Q` unchanged; the queue
afterwards is the queue before, possibly with one job for `P` appended. -/
theorem per_path_frame (E : Engine) (P Q : String) (hPQ : Q ≠ P) (O : Slice) (s : String)
    (u : Option (List (String × String))) (w : workunit) (hw : w.filename = P)
    (t : TranslationUnitCache) :
    (t.queue.length < WORK_QUEUE_LEN →
      (∃ t' ret, GetTranslationUnit E P O s u t = some (t', ret)) ∧
      (∃ t', addEx w t = some t') ∧ (∃ t' ret, parse E w t = some (t', ret))) ∧
    (∀ t' ret, GetTranslationUnit E P O s u t = some (t', ret) → framed P Q t t') ∧
    (∀ t', addEx w t = some t' → framed P Q t t') ∧
    (∀ t' ret, parse E w t = some (t', ret) → framed P Q t t') := by
  refine ⟨fun hq => ⟨GetTranslationUnit_returns E P O s u t hq, addEx_returns w t hq, ?_⟩,
    fun t' ret h => GetTranslationUnit_framed E P Q hPQ O s u t t' ret h, fun t' h => ?_,
    fun t' ret h => ?_⟩
  · obtain ⟨t1, ret, hg⟩ :=
      GetTranslationUnit_returns E w.filename w.options w.options_script none t hq
    cases hd : w.on_done <;> simp [parse, hg, hd]
  · subst hw
    rcases addEx_outcomes w t t' h with h1 | h1 | ⟨-, -, h1⟩
    · subst h1
      exact framed_keep _ Q _ _ rfl rfl rfl
    · subst h1
      exact framed_keep _ Q _ _ rfl rfl rfl
    · subst h1
      exact framed_append _ Q hPQ _ _ w rfl rfl
        (by simp [enqueued, Function.update_noteq hPQ]) rfl
  · subst hw
    obtain ⟨t1, hg, hl, hq, -, hp, -⟩ := parse_effect E w t t' ret h
    obtain ⟨f1, f2, f3, f4⟩ :=
      GetTranslationUnit_framed E w.filename Q hPQ _ _ none t t1 ret hg
    refine ⟨by rw [hl]; exact f1, ?_, by rw [hq]; exact f3, by rw [hq]; exact f4⟩
    rw [hp, Function.update_noteq hPQ]
    exact f2

/-- C13 at a concrete input: on `nilOptionCache`, a request for `a.cc` with
changed options leaves the path `b.cc` untouched and appends a job for `a.cc`. -/
theorem per_path_frame_witness :
    ("b.cc" : String) ≠ "a.cc" ∧
    ∃ t', (GetTranslationUnit okEngine "a.cc" (some ["-g"]) "" none nilOptionCache).map
        (fun p => p.1) = some t' ∧ framed "a.cc" "b.cc" nilOptionCache t' := by
  refine ⟨by decide, ?_⟩
  obtain ⟨t', ret, h⟩ := GetTranslationUnit_returns okEngine "a.cc" (some ["-g"]) "" none
    nilOptionCache (by decide)
  exact ⟨t', by rw [h]; rfl,
    (per_path_frame okEngine "a.cc" "b.cc" (by decide) (some ["-g"]) "" none
      ⟨"a.cc", none, "", none⟩ rfl nilOptionCache).2.1 t' ret h⟩

/-! ## C14: completion on a file without handle -/

/-- C14: when the `Contents` of the request's file is empty and the file name
has no entry in the map, `CompleteAt` returns no error and the result object
unchanged; the map, the markers, the queue and the allocator are unchanged, and
the only action is the read of the map, so no engine call is made. -/
theorem CompleteAt_uncached (E : Engine) (FLAG_TYPE_CLASS : Nat) (args : CompleteAtArgs)
    (res : CompletionResult) (t : TranslationUnitCache)
    (hc : args.Location.File.Contents = "") (hl : t.lut args.Location.File.Name = none) :
    CompleteAt E FLAG_TYPE_CLASS args res t
      = ({ t with trace := t.trace ++ [Event.lutRead args.Location.File.Name] }, res, none) := by
  simp [CompleteAt, hc, hl, TranslationUnitCache.emit, String.utf8ByteSize,
    String.utf8ByteSize.go]

/-- C14 at a concrete input: a request for `b.cc`, which has no entry in
`markedCache`. -/
theorem CompleteAt_uncached_witness :
    markedCache.lut "b.cc" = none ∧
    CompleteAt okEngine 1 ⟨⟨⟨"b.cc", ""⟩, 3, 7⟩⟩ ⟨[], []⟩ markedCache
      = ({ markedCache with trace := markedCache.trace ++ [Event.lutRead "b.cc"] },
          ⟨[], []⟩, none) :=
  ⟨by decide, CompleteAt_uncached okEngine 1 ⟨⟨⟨"b.cc", ""⟩, 3, 7⟩⟩ ⟨[], []⟩ markedCache rfl
    (by decide)⟩

/-! ## C15: the formatting of function candidates -/

theorem foldl_append_string (acc : String) (l : List String) :
    l.foldl (fun r s => r ++ s) acc = acc ++ l.foldl (fun r s => r ++ s) "" := by
  induction l generalizing acc with
  | nil => simp
  | cons a l ih =>
    simp only [List.foldl_cons, String.empty_append]
    rw [ih (acc ++ a), ih a, String.append_assoc]

theorem join_cons (a : String) (l : List String) : String.join (a :: l) = a ++ String.join l := by
  simp only [String.join, List.foldl_cons, String.empty_append]
  exact foldl_append_string a l

theorem specName_cons (c : CompletionChunk) (cs : List CompletionChunk) :
    specName (c :: cs) =
      if c.Kind = CompletionChunkKind.LeftParen then ""
      else if c.Kind = CompletionChunkKind.TypedText then c.Text ++ specName cs
      else specName cs := by
  by_cases h1 : c.Kind = CompletionChunkKind.LeftParen
  · simp [specName, h1, String.join]
  · by_cases h2 : c.Kind = CompletionChunkKind.TypedText
    · simp [specName, h1, h2, List.takeWhile_cons, join_cons]
    · simp [specName, h1, h2, List.takeWhile_cons]

theorem functionDeclChunk_fold (cs : List CompletionChunk) (l : FunctionDeclLocals) :
    (cs.foldl functionDeclChunk l).m.Name = l.m.Name ∧
    (cs.foldl functionDeclChunk l).m.Parameters
      = l.m.Parameters ++ specParametersFrom l.argCount cs ∧
    (cs.foldl functionDeclChunk l).m.Returns = l.m.Returns ++ specReturns cs ∧
    (cs.foldl functionDeclChunk l).buf
      = l.buf ++ (if l.paramstarted then "" else specName cs) := by
  induction cs generalizing l with
  | nil => simp [specParametersFrom, specReturns, specName, String.join]
  | cons c cs ih =>
    obtain ⟨h1, h2, h3, h4⟩ := ih (functionDeclChunk l c)
    simp only [List.foldl_cons, h1, h2, h3, h4, specName_cons]
    cases hk : c.Kind <;> cases hp : l.paramstarted <;>
      simp [functionDeclChunk, hk, hp, specParametersFrom, specReturns, List.enumFrom_cons,
        String.append_assoc, FullyQualifiedName.zero, ContentType.zero, Variable.zero]

theorem completeResult_methods (F : Nat) (results : List CompletionCandidate)
    (res : CompletionResult) :
    (results.foldl (completeResult F) res).Methods = res.Methods ++ specMethods results := by
  induction results generalizing res with
  | nil => simp [specMethods]
  | cons r rs ih =>
    rw [List.foldl_cons, ih]
    cases hk : r.CursorKind with
    | FunctionDecl =>
      obtain ⟨h1, h2, h3, h4⟩ := functionDeclChunk_fold r.Chunks
        { m := Method.zero, paramstarted := false, argCount := 0, buf := "" }
      simp only [Method.zero, FullyQualifiedName.zero] at h1 h2 h3 h4
      have hm : (completeResult F res r).Methods = res.Methods ++ [specMethod r.Chunks] := by
        simp [completeResult, hk, h1, h2, h3, h4, specMethod, specParameters, Method.zero,
          FullyQualifiedName.zero]
      rw [hm]
      simp [specMethods, hk]
    | StructDecl => simp [completeResult, hk, specMethods]
    | TypedefDecl => simp [completeResult, hk, specMethods]
    | Other k => simp [completeResult, hk, specMethods]

/-- C15: when the file of the request has empty `Contents` and a handle, and
the engine returns a valid candidate list, `CompleteAt` returns no error and
the methods of the result object are the methods it had, followed by one
method per candidate of kind `FunctionDecl` in candidate order, each formatted
as the specification says (`specMethod`): parameters `arg0`, `arg1`, ... typed
by the `Placeholder` chunks, one return per `ResultType` chunk, and the name
made of the `TypedText` chunks before the first `LeftParen` of that candidate. -/
theorem CompleteAt_function_methods (E : Engine) (FLAG_TYPE_CLASS : Nat)
    (args : CompleteAtArgs) (res : CompletionResult) (t : TranslationUnitCache)
    (tu : LockedTranslationUnit) (results : List CompletionCandidate)
    (hc : args.Location.File.Contents = "")
    (hl : t.lut args.Location.File.Name = some tu)
    (hv : E.CompleteAt (t.trace.length + 1) tu.TranslationUnit args.Location.File.Name
      (goInt args.Location.Line) (goInt args.Location.Column) 0 = some results) :
    ∃ t' res', CompleteAt E FLAG_TYPE_CLASS args res t = (t', res', none) ∧
      res'.Methods = res.Methods ++ specMethods results := by
  refine ⟨t.emit [Event.lutRead args.Location.File.Name,
      Event.tuCompleteAt tu.TranslationUnit.c args.Location.File.Name
        (goInt args.Location.Line) (goInt args.Location.Column) 0, Event.cresDispose],
    results.foldl (completeResult FLAG_TYPE_CLASS) res, ?_,
    completeResult_methods FLAG_TYPE_CLASS results res⟩
  simp [CompleteAt, hc, hl, hv, TranslationUnitCache.emit, String.utf8ByteSize,
    String.utf8ByteSize.go]

/-- C15 at a concrete input: completion in `a.cc` on `nilOptionCache` with an
engine returning `sampleCandidates`, the result object holding one method
`old` already. -/
theorem CompleteAt_function_methods_witness :
    specMethods sampleCandidates
      = [⟨⟨"foo", ""⟩,
          [⟨⟨"arg0", ""⟩, ⟨⟨"int a", ""⟩, 0⟩⟩, ⟨⟨"arg1", ""⟩, ⟨⟨"char b", ""⟩, 0⟩⟩],
          [⟨⟨"int", ""⟩, ⟨⟨"", ""⟩, 0⟩⟩]⟩,
         ⟨⟨"bar", ""⟩, [], []⟩] ∧
    ∃ t' res', CompleteAt sampleEngine 1 ⟨⟨⟨"a.cc", ""⟩, 2, 4⟩⟩ ⟨[], [⟨⟨"old", ""⟩, [], []⟩]⟩
        nilOptionCache = (t', res', none) ∧
      res'.Methods = [⟨⟨"old", ""⟩, [], []⟩] ++ specMethods sampleCandidates :=
  ⟨by rfl,
    CompleteAt_function_methods sampleEngine 1 ⟨⟨⟨"a.cc", ""⟩, 2, 4⟩⟩
      ⟨[], [⟨⟨"old", ""⟩, [], []⟩]⟩ nilOptionCache ⟨0, ⟨4⟩, none, ""⟩ sampleCandidates rfl
      (by decide) rfl⟩

/-! ## C12: the store lock -/

theorem lockAfter_append (held : Bool) (a b : List Event) :
    lockAfter held (a ++ b) = lockAfter (lockAfter held a) b := by
  simp [lockAfter, List.foldl_append]

theorem lockViolations_append (held : Bool) (a b : List Event) :
    lockViolations held (a ++ b)
      = lockViolations held a ++ lockViolations (lockAfter held a) b := by
  induction a generalizing held with
  | nil => simp [lockViolations, lockAfter]
  | cons e a ih =>
    have hi := ih (lockStep held e)
    simp only [lockAfter] at hi
    simp only [List.cons_append, lockViolations, lockAfter, List.foldl_cons]
    split
    · exact congrArg (List.cons e) hi
    · exact hi

/-- A trace extension that keeps the lock discipline and ends with the lock
released. -/
theorem addEx_disciplined (w : workunit) (t t' : TranslationUnitCache)
    (h : addEx w t = some t') :
    ∃ es, t'.trace = t.trace ++ es ∧ lockViolations false es = [] ∧
      lockAfter false es = false := by
  rcases addEx_outcomes w t t' h with h1 | h1 | ⟨-, -, h1⟩ <;> subst h1
  · exact ⟨_, rfl, by simp [lockViolations, lockStep, Event.isStoreAccess, Event.isIndexParse,
      Event.isCallback], by simp [lockAfter, lockStep]⟩
  · exact ⟨_, rfl, by simp [lockViolations, lockStep, Event.isStoreAccess, Event.isIndexParse,
      Event.isCallback], by simp [lockAfter, lockStep]⟩
  · exact ⟨_, rfl, by simp [lockViolations, lockStep, Event.isStoreAccess, Event.isIndexParse,
      Event.isCallback], by simp [lockAfter, lockStep]⟩

theorem GetTranslationUnit_disciplined (E : Engine) (P : String) (O : Slice) (s : String)
    (u : Option (List (String × String))) (t t' : TranslationUnitCache)
    (ret : Option LockedTranslationUnit)
    (h : GetTranslationUnit E P O s u t = some (t', ret)) :
    ∃ es, t'.trace = t.trace ++ es ∧ lockViolations false es = [] ∧
      lockAfter false es = false := by
  rcases GetTranslationUnit_outcomes E P O s u t t' ret h with
    ⟨-, h1, -⟩ | ⟨H, -, -, h1 | h1 | ⟨-, h1⟩⟩ <;> subst h1
  · exact ⟨_, rfl, by simp [lockViolations, lockStep, Event.isStoreAccess, Event.isIndexParse,
      Event.isCallback], by simp [lockAfter, lockStep]⟩
  · exact ⟨_, rfl, by simp [lockViolations, lockStep, Event.isStoreAccess, Event.isIndexParse,
      Event.isCallback], by simp [lockAfter, lockStep]⟩
  · refine ⟨[Event.Lock, Event.lutRead P, Event.lutDelete P, Event.Unlock, Event.Lock,
      Event.lutRead P, Event.parsingRead P, Event.Unlock], ?_, ?_, ?_⟩
    · simp [evicted, TranslationUnitCache.emit]
    · simp [lockViolations, lockStep, Event.isStoreAccess, Event.isIndexParse, Event.isCallback]
    · simp [lockAfter, lockStep]
  · refine ⟨[Event.Lock, Event.lutRead P, Event.lutDelete P, Event.Unlock, Event.Lock,
      Event.lutRead P, Event.parsingRead P, Event.parsingWrite P true,
      Event.queueSend ⟨P, O, s, none⟩, Event.Unlock], ?_, ?_, ?_⟩
    · simp [enqueued, evicted]
    · simp [lockViolations, lockStep, Event.isStoreAccess, Event.isIndexParse, Event.isCallback]
    · simp [lockAfter, lockStep]

/-- C12, as stated, fails: `parse` of a work unit with callback `7` invokes the
callback while the store lock is held, and `CompleteAt` for a file with empty
`Contents` reads the map while the store lock is not held. -/
theorem store_lock_counterexample :
    (parse okEngine ⟨"a.cc", none, "", some 7⟩ NewTranslationUnitCache).map
        (fun p => (p.1.trace, lockViolations false p.1.trace))
      = some ([Event.Lock, Event.lutRead "a.cc", Event.Unlock, Event.indexParse "a.cc" none 0,
          Event.Lock, Event.lutWrite "a.cc" 0, Event.Unlock,
          Event.Lock, Event.parsingWrite "a.cc" false, Event.callback 7, Event.Unlock],
        [Event.callback 7]) ∧
    lockViolations false
        (CompleteAt okEngine 1 ⟨⟨⟨"b.cc", ""⟩, 1, 1⟩⟩ ⟨[], []⟩ NewTranslationUnitCache).1.trace
      = [Event.lutRead "b.cc"] := by
  constructor <;> rfl

/-- C12 (amended): along the actions of a returning `addEx` or
`GetTranslationUnit`, started with the store lock free, every read or write of
the map and of the marker set happens while the store lock is held, the
engine's `Parse` is called while it is not held, and the lock is free at the
end; the same holds of `parse`, except that the completion callback, when
`on_done` is not nil, is invoked while the store lock is held.  The operations
return when the queue has room. -/
theorem store_lock_discipline (E : Engine) (t : TranslationUnitCache) (w : workunit)
    (P : String) (O : Slice) (s : String) (u : Option (List (String × String))) :
    (t.queue.length < WORK_QUEUE_LEN →
      (∃ t', addEx w t = some t') ∧
      (∃ t' ret, GetTranslationUnit E P O s u t = some (t', ret)) ∧
      (∃ t' ret, parse E w t = some (t', ret))) ∧
    (∀ t', addEx w t = some t' →
      ∃ es, t'.trace = t.trace ++ es ∧ lockViolations false es = [] ∧
        lockAfter false es = false) ∧
    (∀ t' ret, GetTranslationUnit E P O s u t = some (t', ret) →
      ∃ es, t'.trace = t.trace ++ es ∧ lockViolations false es = [] ∧
        lockAfter false es = false) ∧
    (∀ t' ret, parse E w t = some (t', ret) →
      ∃ es, t'.trace = t.trace ++ es ∧
        lockViolations false es = w.on_done.toList.map Event.callback ∧
        lockAfter false es = false) := by
  refine ⟨fun hq => ⟨addEx_returns w t hq, GetTranslationUnit_returns E P O s u t hq, ?_⟩,
    fun t' h => addEx_disciplined w t t' h,
    fun t' ret h => GetTranslationUnit_disciplined E P O s u t t' ret h,
    fun t' ret h => ?_⟩
  · obtain ⟨t1, ret, hg⟩ :=
      GetTranslationUnit_returns E w.filename w.options w.options_script none t hq
    cases hd : w.on_done <;> simp [parse, hg, hd]
  · obtain ⟨t1, hg, -, -, -, -, htr⟩ := parse_effect E w t t' ret h
    obtain ⟨es, he, hv, ha⟩ := GetTranslationUnit_disciplined E _ _ _ none t t1 ret hg
    refine ⟨es ++ ([Event.Lock, Event.parsingWrite w.filename false]
      ++ w.on_done.toList.map Event.callback ++ [Event.Unlock]), ?_, ?_, ?_⟩
    · rw [htr, he]
      simp [List.append_assoc]
    · rw [lockViolations_append, hv, ha]
      cases hd : w.on_done <;>
        simp [lockViolations, lockStep, Event.isStoreAccess, Event.isIndexParse,
          Event.isCallback]
    · rw [lockAfter_append, ha]
      cases hd : w.on_done <;> simp [lockAfter, lockStep]

/-- C12 at a concrete input: `parse` with callback `3` on `nilOptionCache`. -/
theorem store_lock_discipline_witness :
    nilOptionCache.queue.length < WORK_QUEUE_LEN ∧
    (∃ t' ret, parse okEngine ⟨"a.cc", none, "", some 3⟩ nilOptionCache = some (t', ret)) ∧
    (parse okEngine ⟨"a.cc", none, "", some 3⟩ nilOptionCache).map
        (fun p => lockViolations false p.1.trace) = some [Event.callback 3] :=
  ⟨by decide,
    ((store_lock_discipline okEngine nilOptionCache ⟨"a.cc", none, "", some 3⟩ "a.cc" none ""
      none).1 (by decide)).2.2, by rfl⟩

/-! ## C11: engine calls per path -/

theorem pendingCache_reached :
    addEx ⟨"a.cc", some ["-std=c++17"], "", none⟩ NewTranslationUnitCache = some pendingCache :=
  addEx_enqueue _ _ (by decide) (by decide) (by decide)

/-- C11, as stated, fails: in `pendingCache` the path `a.cc` is absent from the
map and marked parsing, with its parse job queued; `GetTranslationUnit` for
`a.cc` nevertheless calls the engine's `Parse` itself. -/
theorem one_parse_in_flight_counterexample :
    pendingCache.lut "a.cc" = none ∧ pendingCache.parsing "a.cc" = true ∧
    jobsFor "a.cc" pendingCache.queue = 1 ∧
    pendingCache.trace.filter Event.isIndexParse = [] ∧
    (GetTranslationUnit okEngine "a.cc" (some ["-std=c++17"]) "" none pendingCache).map
        (fun p => p.1.trace.filter Event.isIndexParse)
      = some [Event.indexParse "a.cc" (some ["-std=c++17"]) 0] := by
  refine ⟨by decide, by decide, by decide, by decide, by rfl⟩

/-- C11 (amended): the marker is not consulted by `GetTranslationUnit`: on a
path without entry in the map it returns a new handle after exactly one call
of the engine's `Parse` for that path, made between the unlock of the lookup
and the lock of the store, whether or not the path is marked parsing; on a
path with an entry it returns without any engine call; and `addEx` makes no
engine call. -/
theorem GetTranslationUnit_engine_calls (E : Engine) (P : String) (O : Slice) (s : String)
    (u : Option (List (String × String))) (t : TranslationUnitCache) :
    (t.lut P = none →
      ∃ t' H, GetTranslationUnit E P O s u t = some (t', some H) ∧
        t'.trace = t.trace ++ [Event.Lock, Event.lutRead P, Event.Unlock,
          Event.indexParse P O index_parse_options,
          Event.Lock, Event.lutWrite P H.addr, Event.Unlock]) ∧
    (t.lut P ≠ none → ∀ t' ret, GetTranslationUnit E P O s u t = some (t', ret) →
      ∃ es, t'.trace = t.trace ++ es ∧ es.filter Event.isEngineCall = []) ∧
    (∀ w t', addEx w t = some t' →
      ∃ es, t'.trace = t.trace ++ es ∧ es.filter Event.isEngineCall = []) := by
  refine ⟨fun hl => ⟨_, _, GetTranslationUnit_absent E P O s u t hl, rfl⟩,
    fun hl t' ret h => ?_, fun w t' h => ?_⟩
  · rcases GetTranslationUnit_outcomes E P O s u t t' ret h with
      ⟨h0, -, -⟩ | ⟨H, -, -, h1 | h1 | ⟨-, h1⟩⟩
    · exact absurd h0 hl
    · subst h1
      exact ⟨_, rfl, by simp [Event.isEngineCall]⟩
    · subst h1
      exact ⟨[Event.Lock, Event.lutRead P, Event.lutDelete P, Event.Unlock, Event.Lock,
        Event.lutRead P, Event.parsingRead P, Event.Unlock],
        by simp [evicted, TranslationUnitCache.emit], by simp [Event.isEngineCall]⟩
    · subst h1
      exact ⟨[Event.Lock, Event.lutRead P, Event.lutDelete P, Event.Unlock, Event.Lock,
        Event.lutRead P, Event.parsingRead P, Event.parsingWrite P true,
        Event.queueSend ⟨P, O, s, none⟩, Event.Unlock],
        by simp [enqueued, evicted], by simp [Event.isEngineCall]⟩
  · rcases addEx_outcomes w t t' h with h1 | h1 | ⟨-, -, h1⟩ <;> subst h1 <;>
      exact ⟨_, rfl, by simp [Event.isEngineCall]⟩

/-- C11 at a concrete input: on `pendingCache`, where `a.cc` has no entry and
is marked parsing, `GetTranslationUnit` parses. -/
theorem GetTranslationUnit_engine_calls_witness :
    pendingCache.lut "a.cc" = none ∧ pendingCache.parsing "a.cc" = true ∧
    ∃ t' H, GetTranslationUnit okEngine "a.cc" none "" none pendingCache = some (t', some H) ∧
      t'.trace = pendingCache.trace ++ [Event.Lock, Event.lutRead "a.cc", Event.Unlock,
        Event.indexParse "a.cc" none index_parse_options,
        Event.Lock, Event.lutWrite "a.cc" H.addr, Event.Unlock] :=
  ⟨by decide, by decide,
    (GetTranslationUnit_engine_calls okEngine "a.cc" none "" none pendingCache).1 (by decide)⟩

end libclang
